import Mathlib

/-! Verification of the gtn weighted-automaton combinator library.

This file gives a shallow embedding of the graph combinators implemented in
the repository's `functions.cpp` (negate, add, subtract, concat, closure,
remove, and the matcher selection of compose/intersect) together with the
backward closures they record, and proves structural and
gradient-bookkeeping properties about them.

The `Graph` data structure itself (GraphCore) is not part of the provided
sources; its primitives (addNode, addArc, makeAccept, addGrad, item,
withoutWeights, the epsilon sentinel) are modelled from the specification,
as marked on each definition.  Everything else is translated directly from
`functions.cpp`.  C++ `float` weights are modelled as rational numbers. -/

namespace Gtn

/-- Modelled from the spec: the reserved sentinel label denoting epsilon
(no symbol consumed/produced).  It is defined in GraphCore, which is not
under src/; gtn uses the value -1. -/
def epsilon : Int := -1

/-- A node of a graph: a start flag and an accept flag.  The node's index is
its position in `Graph.nodes`. -/
structure Node where
  start : Bool
  accept : Bool
deriving DecidableEq, Repr, Inhabited

/-- An arc of a graph: source and destination node index, input label,
output label and weight. -/
structure Arc where
  src : Nat
  dst : Nat
  ilabel : Int
  olabel : Int
  weight : ℚ
deriving DecidableEq, Repr, Inhabited

/-- A graph: an ordered node sequence and an ordered arc sequence, plus the
autograd state modelled from the spec (GraphCore is not under src/):
`calcGrad` records whether gradient tracking was requested and `grad` is the
lazily allocated per-arc gradient accumulator.  `ilabelSorted`/`olabelSorted`
are the static cached sortedness flags consulted by compose/intersect. -/
structure Graph where
  nodes : List Node
  arcs : List Arc
  calcGrad : Bool
  grad : Option (List ℚ)
  ilabelSorted : Bool
  olabelSorted : Bool
deriving DecidableEq, Repr

instance : Inhabited Graph := ⟨⟨[], [], false, none, false, false⟩⟩

/-- The default-constructed graph (`Graph out` in C++ before any insertion). -/
def Graph.empty : Graph := ⟨[], [], false, none, false, false⟩

def Graph.numNodes (g : Graph) : Nat := g.nodes.length

def Graph.numArcs (g : Graph) : Nat := g.arcs.length

def Graph.isStart (g : Graph) (n : Nat) : Bool := (g.nodes.getD n default).start

def Graph.isAccept (g : Graph) (n : Nat) : Bool := (g.nodes.getD n default).accept

def Graph.srcNode (g : Graph) (a : Nat) : Nat := (g.arcs.getD a default).src

def Graph.dstNode (g : Graph) (a : Nat) : Nat := (g.arcs.getD a default).dst

def Graph.ilabel (g : Graph) (a : Nat) : Int := (g.arcs.getD a default).ilabel

def Graph.olabel (g : Graph) (a : Nat) : Int := (g.arcs.getD a default).olabel

def Graph.weight (g : Graph) (a : Nat) : ℚ := (g.arcs.getD a default).weight

/-- The list of start-node indices, in index order. -/
def Graph.start (g : Graph) : List Nat :=
  (List.range g.numNodes).filter (fun n => g.isStart n)

/-- The list of accept-node indices, in index order. -/
def Graph.accept (g : Graph) : List Nat :=
  (List.range g.numNodes).filter (fun n => g.isAccept n)

def Graph.numStart (g : Graph) : Nat := g.start.length

def Graph.numAccept (g : Graph) : Nat := g.accept.length

/-- Indices of the arcs leaving node `n`, in insertion order (`g.out(n)`). -/
def Graph.out (g : Graph) (n : Nat) : List Nat :=
  (List.range g.numArcs).filter (fun a => g.srcNode a == n)

/-- Indices of the arcs entering node `n`, in insertion order (`g.in(n)`). -/
def Graph.inArcs (g : Graph) (n : Nat) : List Nat :=
  (List.range g.numArcs).filter (fun a => g.dstNode a == n)

def Graph.numOut (g : Graph) (n : Nat) : Nat := (g.out n).length

/-- The per-arc weight sequence (`deltas.weights()` in the backward code). -/
def Graph.weights (g : Graph) : List ℚ := g.arcs.map (fun a => a.weight)

/-- Modelled from the spec: `Graph::item()` (GraphCore is not under src/),
the scalar value of a single-arc graph, i.e. the weight of its only arc. -/
def Graph.item (g : Graph) : ℚ := g.weight 0

/-- Modelled from the spec: `Graph::addNode` (GraphCore is not under src/).
Appends a node with the given start/accept flags and returns its index. -/
def Graph.addNode (g : Graph) (s a : Bool) : Graph × Nat :=
  ({ g with nodes := g.nodes ++ [⟨s, a⟩] }, g.nodes.length)

/-- Modelled from the spec: `Graph::addArc` (GraphCore is not under src/).
Appends an arc and returns its index.  Call sites using the C++ defaults
(olabel = ilabel, weight = 0) pass those values explicitly. -/
def Graph.addArc (g : Graph) (s d : Nat) (il ol : Int) (w : ℚ) : Graph × Nat :=
  ({ g with arcs := g.arcs ++ [⟨s, d, il, ol, w⟩] }, g.arcs.length)

/-- Modelled from the spec: `Graph::makeAccept` (GraphCore is not under
src/).  Marks node `n` as an accept node. -/
def Graph.makeAccept (g : Graph) (n : Nat) : Graph :=
  { g with nodes := g.nodes.set n ⟨(g.nodes.getD n default).start, true⟩ }

/-- Modelled from the spec: `Graph::withoutWeights` (GraphCore is not under
src/): a structural copy with the same nodes/arcs/topology and weights
zeroed, carrying no recorded autograd chain of its own.  The gradient
accumulator and the calcGrad flag are shared with the original graph, which
is what lets the backward rules of concat/closure/union reach the original
input (spec section 4.5). -/
def Graph.withoutWeights (g : Graph) : Graph :=
  { g with arcs := g.arcs.map (fun a => { a with weight := 0 }) }

/-- Modelled from the spec: `Graph::addGrad` (GraphCore is not under src/).
Accumulates (sums) a per-arc gradient contribution, never overwriting;
buffers are allocated lazily and only when gradient tracking was requested,
so the call is a no-op on a graph whose calcGrad flag is false
("pay only for what's requested"). -/
def Graph.addGrad (g : Graph) (other : List ℚ) : Graph :=
  if g.calcGrad then
    match g.grad with
    | none => { g with grad := some other }
    | some gr => { g with grad := some (List.zipWith (fun x y => x + y) gr other) }
  else g

/-- Modelled from the spec: the `Graph::addGrad(const Graph&)` overload,
which accumulates the other graph's per-arc weights. -/
def Graph.addGradG (g : Graph) (other : Graph) : Graph := g.addGrad other.weights

/-- Mutation of position `i` of the input list of a backward closure
(`inputs[i] = ...` on the C++ `std::vector<Graph>& inputs`). -/
def updateAt (l : List Graph) (i : Nat) (f : Graph → Graph) : List Graph :=
  l.set i (f (l.getD i default))

/-! ## Scalar combinators: negate, add, subtract (functions.cpp lines 18-64)

Failure (`throw std::logic_error`) is modelled with `Except`; the
precondition is tested before any node or arc of the result is created, so
in the error case no graph is constructed at all. -/

/-- `gtn::negate`: requires exactly one arc; two-node single-arc result with
the negated weight. -/
def negate (g : Graph) : Except String Graph :=
  if g.numArcs != 1 then
    .error ("[gtn::negate] input must have only one arc")
  else
    let r1 := (Graph.empty.addNode true false).1
    let r2 := (r1.addNode false true).1
    .ok ((r2.addArc 0 1 0 0 (-(g.item))).1)

/-- The backward closure recorded by `gtn::negate`:
`inputs[0].addGrad(negate(deltas))`. -/
def negateGradFunc (inputs : List Graph) (deltas : Graph) : Except String (List Graph) :=
  match negate deltas with
  | .error e => .error e
  | .ok nd => .ok (updateAt inputs 0 (fun h => h.addGradG nd))

/-- `gtn::add`: requires both inputs have exactly one arc; two-node
single-arc result with the summed weight. -/
def add (g1 g2 : Graph) : Except String Graph :=
  if g1.numArcs != 1 || g2.numArcs != 1 then
    .error ("[gtn::add] inputs must have only one arc")
  else
    let w := g1.item + g2.item
    let r1 := (Graph.empty.addNode true false).1
    let r2 := (r1.addNode false true).1
    .ok ((r2.addArc 0 1 0 0 w).1)

/-- The backward closure recorded by `gtn::add`:
`inputs[0].addGrad(deltas); inputs[1].addGrad(deltas)`. -/
def addGradFunc (inputs : List Graph) (deltas : Graph) : List Graph :=
  updateAt (updateAt inputs 0 (fun h => h.addGradG deltas)) 1 (fun h => h.addGradG deltas)

/-- `gtn::subtract`: requires both inputs have exactly one arc; two-node
single-arc result with the difference of the weights. -/
def subtract (g1 g2 : Graph) : Except String Graph :=
  if g1.numArcs != 1 || g2.numArcs != 1 then
    .error ("[gtn::subtract] inputs must have only one arc")
  else
    let w := g1.item - g2.item
    let r1 := (Graph.empty.addNode true false).1
    let r2 := (r1.addNode false true).1
    .ok ((r2.addArc 0 1 0 0 w).1)

/-- The backward closure recorded by `gtn::subtract`:
`inputs[0].addGrad(deltas); if (inputs[1].calcGrad()) inputs[1].addGrad(negate(deltas))`.
The negation is computed only inside the calcGrad branch. -/
def subtractGradFunc (inputs : List Graph) (deltas : Graph) : Except String (List Graph) :=
  let inputs1 := updateAt inputs 0 (fun h => h.addGradG deltas)
  if (inputs1.getD 1 default).calcGrad then
    match negate deltas with
    | .error e => .error e
    | .ok nd => .ok (updateAt inputs1 1 (fun h => h.addGradG nd))
  else
    .ok inputs1

/-! ## Matcher selection for compose / intersect (functions.cpp lines 225-251)

The matchers themselves and `detail::compose` live in compose.cpp, which is
not part of the provided sources; only the selection made by `gtn::compose`
and `gtn::intersect` is claimed and modelled. -/

/-- The three interchangeable arc-matching strategies.  The Boolean carried
by the singly-sorted matcher is the `g1Sorted` constructor argument of
`detail::SinglySortedMatcher(g1, g2, g1Sorted)`. -/
inductive MatcherKind where
  | doublySorted : MatcherKind
  | singlySorted : Bool → MatcherKind
  | unsorted : MatcherKind
deriving DecidableEq, Repr

/-- The matcher chosen by `gtn::compose`, driven by g1's olabel sortedness
and g2's ilabel sortedness. -/
def composeMatcher (g1 g2 : Graph) : MatcherKind :=
  let g1Sorted := g1.olabelSorted
  let g2Sorted := g2.ilabelSorted
  if g1Sorted && g2Sorted then .doublySorted
  else if g1Sorted || g2Sorted then .singlySorted g1Sorted
  else .unsorted

/-- The matcher chosen by `gtn::intersect`, driven by each graph's
input-or-output-label sortedness. -/
def intersectMatcher (g1 g2 : Graph) : MatcherKind :=
  let g1Sorted := g1.ilabelSorted || g1.olabelSorted
  let g2Sorted := g2.ilabelSorted || g2.olabelSorted
  if g1Sorted && g2Sorted then .doublySorted
  else if g1Sorted || g2Sorted then .singlySorted g1Sorted
  else .unsorted

/-! ## The backward closure of remove (functions.cpp lines 271-273) -/

/-- The backward closure recorded by `gtn::remove`: it unconditionally
throws (the gradient computation is not implemented), so no `addGrad` is
ever reached through it. -/
def removeGradFunc (inputs : List Graph) (deltas : Graph) : Except String (List Graph) :=
  .error ("[gtn::remove] gradient compuation not implemented")

/-- The shape shared by the results of negate/add/subtract: two nodes, one
start and one accept, joined by a single arc of weight `w`. -/
def scalarResult (w : ℚ) : Graph :=
  ⟨[⟨true, false⟩, ⟨false, true⟩], [⟨0, 1, 0, 0, w⟩], false, none, false, false⟩

/-! ## concat (functions.cpp lines 97-153)

The C++ loops mutating `out` are rendered as tail-recursive helpers over the
lists they iterate, threading the graph being built. -/

/-- The node loop of one concat iteration: a node per input node, start only
when this is the first input and the node starts, accept only when this is
the last input and the node accepts. -/
def addNodesOf (out : Graph) (l : List Node) (first isLast : Bool) : Graph :=
  match l with
  | [] => out
  | nd :: rest => addNodesOf (out.addNode (first && nd.start) (isLast && nd.accept)).1 rest first isLast

/-- The arc loop of one concat iteration: each input arc with both endpoints
shifted by the node offset, labels and weight unchanged. -/
def addArcsOf (out : Graph) (l : List Arc) (off : Nat) : Graph :=
  match l with
  | [] => out
  | ar :: rest => addArcsOf (out.addArc (off + ar.src) (off + ar.dst) ar.ilabel ar.olabel ar.weight).1 rest off

/-- Inner connector loop: epsilon arcs from accept state `a` of the previous
input to every start state of the current input. -/
def addConnectInner (out : Graph) (a : Nat) (starts : List Nat) (pOff off : Nat) : Graph :=
  match starts with
  | [] => out
  | s :: rest => addConnectInner (out.addArc (a + pOff) (s + off) epsilon epsilon 0).1 a rest pOff off

/-- Outer connector loop: the full accept-times-start cross product of
epsilon arcs between two consecutive inputs. -/
def addConnectArcs (out : Graph) (accepts starts : List Nat) (pOff off : Nat) : Graph :=
  match accepts with
  | [] => out
  | a :: rest => addConnectArcs (addConnectInner out a starts pOff off) rest starts pOff off

/-- The main loop of `gtn::concat`: per input, nodes, then arcs, then (when
there is a previous input) the epsilon connector arcs from the previous
input's accepts to this input's starts. -/
def concatLoop (out : Graph) (prev : Option Graph) (off : Nat) (first : Bool) : List Graph → Graph
  | [] => out
  | g :: rest =>
    let o1 := addNodesOf out g.nodes first rest.isEmpty
    let o2 := addArcsOf o1 g.arcs off
    let o3 := match prev with
      | none => o2
      | some p => addConnectArcs o2 p.accept g.start (off - p.numNodes) off
    concatLoop o3 (some g) (off + g.numNodes) false rest

/-- `gtn::concat` on a list of graphs.  Concatenating zero graphs yields the
single start-and-accept node accepting the empty string. -/
def concat (graphs : List Graph) : Graph :=
  match graphs with
  | [] => (Graph.empty.addNode true true).1
  | _ => concatLoop Graph.empty none 0 true graphs

/-- The backward closure recorded by `gtn::concat`: a pointer walks the
deltas' weights; per input, when its gradient is requested, the next
numArcs-sized span is accumulated into it; the pointer then advances past
that span and (from the second input on) past the span of synthetic epsilon
connector arcs, whose size is the previous input's accept count times this
input's start count. -/
def concatGradLoop (ws : List ℚ) : Option Graph → Nat → List Graph → List Graph
  | _, _, [] => []
  | prev, off, g :: rest =>
    let g1 := if g.calcGrad then g.addGrad ((ws.drop off).take g.numArcs) else g
    let off1 := off + g.numArcs +
      (match prev with
       | none => 0
       | some p => p.numAccept * g.numStart)
    g1 :: concatGradLoop ws (some g) off1 rest

/-- The backward closure recorded by `gtn::concat`, applied to the recorded
input list and a deltas graph. -/
def concatGradFunc (inputs : List Graph) (deltas : Graph) : List Graph :=
  concatGradLoop deltas.weights none 0 inputs

/-! ## Declarative descriptions of the concat layout (from the spec) -/

/-- Shift an arc's endpoints by a node offset. -/
def shiftArc (off : Nat) (a : Arc) : Arc :=
  ⟨off + a.src, off + a.dst, a.ilabel, a.olabel, a.weight⟩

/-- Spec-side description of the node sequence of a concatenation: the
inputs' nodes in order; only the first input's start flags and the last
input's accept flags survive. -/
def concatNodesFrom : Bool → List Graph → List Node
  | _, [] => []
  | first, g :: rest =>
      g.nodes.map (fun nd => ⟨first && nd.start, rest.isEmpty && nd.accept⟩)
        ++ concatNodesFrom false rest

/-- Spec-side description of the epsilon connector arcs between two
consecutive inputs: the full cross product from the previous input's accept
states to the current input's start states. -/
def connArcs (p g : Graph) (pOff off : Nat) : List Arc :=
  (p.accept.map (fun a => g.start.map (fun s => (⟨a + pOff, s + off, epsilon, epsilon, 0⟩ : Arc)))).flatten

/-- Spec-side description of the arc sequence of a concatenation: per input,
its own arcs shifted by its node offset, then (from the second input on) the
epsilon connector arcs from the previous input. -/
def concatArcsFrom : Option Graph → Nat → List Graph → List Arc
  | _, _, [] => []
  | prev, off, g :: rest =>
      g.arcs.map (shiftArc off)
        ++ (match prev with
            | none => []
            | some p => connArcs p g (off - p.numNodes) off)
        ++ concatArcsFrom (some g) (off + g.numNodes) rest

/-- The sequence of positions at which the backward closure of concat reads
each input's gradient span out of the deltas' weights. -/
def concatGradOffsets : Option Graph → Nat → List Graph → List Nat
  | _, _, [] => []
  | prev, off, g :: rest =>
      off :: concatGradOffsets (some g)
        (off + g.numArcs +
          (match prev with
           | none => 0
           | some p => p.numAccept * g.numStart)) rest

/-- The node offset of input `i` inside the concatenation. -/
def concatNodeOffset (gs : List Graph) (i : Nat) : Nat :=
  ((gs.take i).map Graph.numNodes).sum

/-! ## closure (functions.cpp lines 155-186) -/

/-- The node loop of `gtn::closure`: one plain node per input node. -/
def closureNodes (out : Graph) (l : List Node) : Graph :=
  match l with
  | [] => out
  | _ :: rest => closureNodes (out.addNode false false).1 rest

/-- The arc loop of `gtn::closure`: each input arc with both endpoints
shifted by one, labels and weight unchanged. -/
def closureArcs (out : Graph) (l : List Arc) : Graph :=
  match l with
  | [] => out
  | ar :: rest =>
      closureArcs (out.addArc (ar.src + 1) (ar.dst + 1) ar.ilabel ar.olabel ar.weight).1 rest

/-- Epsilon arcs from the new start-and-accept node to every old start. -/
def closureStartArcs (out : Graph) (l : List Nat) : Graph :=
  match l with
  | [] => out
  | s :: rest => closureStartArcs (out.addArc 0 (s + 1) epsilon epsilon 0).1 rest

/-- Epsilon arcs from every old accept back to the new node. -/
def closureAcceptArcs (out : Graph) (l : List Nat) : Graph :=
  match l with
  | [] => out
  | a :: rest => closureAcceptArcs (out.addArc (a + 1) 0 epsilon epsilon 0).1 rest

/-- `gtn::closure`: one new start-and-accept node (index 0), the input's
nodes and arcs shifted by one, then the connecting epsilon arcs. -/
def closure (g : Graph) : Graph :=
  let c0 := (Graph.empty.addNode true true).1
  let c1 := closureNodes c0 g.nodes
  let c2 := closureArcs c1 g.arcs
  let c3 := closureStartArcs c2 g.start
  closureAcceptArcs c3 g.accept

/-- The backward closure recorded by `gtn::closure`: the first numArcs delta
values are passed through unchanged to the input (the new graph keeps the
old graph's arcs first, in the same order). -/
def closureGradFunc (inputs : List Graph) (deltas : Graph) : List Graph :=
  updateAt inputs 0 (fun h => h.addGrad (deltas.weights.take h.numArcs))

/-! ## remove (functions.cpp lines 257-318) -/

/-- The `label_match` predicate captured by `gtn::remove`: arc `a` matches
when both of its labels equal the removed pair. -/
def labelMatch (g : Graph) (il ol : Int) (a : Nat) : Bool :=
  g.ilabel a == il && g.olabel a == ol

/-- The survival condition of `gtn::remove`'s first loop: a node survives
iff it is a start node or not all of its incoming arcs match. -/
def removeKeep (g : Graph) (il ol : Int) (n : Nat) : Bool :=
  g.isStart n || !((g.inArcs n).all (labelMatch g il ol))

/-- One iteration of `gtn::remove`'s first loop: create an output node
(start flag preserved, accept false) for a surviving input node and record
its index in the map. -/
def removeInitStep (g : Graph) (il ol : Int) (st : Graph × List Int) (n : Nat) : Graph × List Int :=
  if removeKeep g il ol n then
    let res := st.1.addNode (g.isStart n) false
    (res.1, st.2.set n (Int.ofNat res.2))
  else st

/-- The first loop of `gtn::remove` run over the nodes `0..k`. -/
def removeInitAux (g : Graph) (il ol : Int) (k : Nat) : Graph × List Int :=
  (List.range k).foldl (removeInitStep g il ol) (Graph.empty, List.replicate g.numNodes (-1))

/-- The first loop of `gtn::remove`: create an output node for every
surviving input node and record the mapping, -1 standing for a dropped
node. -/
def removeInit (g : Graph) (il ol : Int) : Graph × List Int :=
  removeInitAux g il ol g.numNodes

/-- The node map built by `gtn::remove`'s first loop. -/
def removeNodeMap (g : Graph) (il ol : Int) : List Int := (removeInit g il ol).2

/-- All destination nodes of g's arcs.  The BFS of `gtn::remove` only ever
enqueues members of this set beyond its seed, which bounds its step count. -/
def dstSet (g : Graph) : Finset Nat := (g.arcs.map (fun a => a.dst)).toFinset

/-- One arc visit of the BFS of `gtn::remove` (state: queue, reachable set,
output graph): a matching arc is followed transparently, enqueueing its
destination when unvisited; a non-matching arc is copied from the surviving
source image `curr` to the destination's image, with the C++ default
weight 0. -/
def bfsStep (g : Graph) (il ol : Int) (nmap : List Int) (curr : Nat)
    (st : List Nat × Finset Nat × Graph) (a : Nat) : List Nat × Finset Nat × Graph :=
  let dn := g.dstNode a
  if labelMatch g il ol a then
    if dn ∈ st.2.1 then st
    else (st.1 ++ [dn], insert dn st.2.1, st.2.2)
  else
    (st.1, st.2.1, (st.2.2.addArc curr (nmap.getD dn (-1)).toNat (g.ilabel a) (g.olabel a) 0).1)

/-- Processing all out-arcs of the node just popped from the queue. -/
def processArcs (g : Graph) (il ol : Int) (nmap : List Int) (curr next : Nat)
    (st : List Nat × Finset Nat × Graph) : List Nat × Finset Nat × Graph :=
  (g.out next).foldl (bfsStep g il ol nmap curr) st

/-- The BFS while-loop of `gtn::remove`, with an explicit step bound `fuel`.
The bound used at the call site, `1 + |dstSet g|`, is proven sufficient:
every node enqueued beyond the seed is a fresh member of `dstSet g`, so the
queue always empties before the bound runs out. -/
def removeBfs (g : Graph) (il ol : Int) (nmap : List Int) (curr : Nat) :
    Nat → List Nat → Finset Nat → Graph → Graph × Finset Nat
  | _, [], reach, out => (out, reach)
  | 0, _ :: _, reach, out => (out, reach)
  | fuel + 1, next :: rest, reach, out =>
      let out1 := if g.isAccept next then out.makeAccept curr else out
      let st := processArcs g il ol nmap curr next (rest, reach, out1)
      removeBfs g il ol nmap curr fuel st.1 st.2.1 st.2.2

/-- One iteration of `gtn::remove`'s second loop: when node `n` survives,
run the BFS from it (queue seeded with `n`, reachable set reset to that
seed). -/
def removeLoopStep (g : Graph) (il ol : Int) (nmap : List Int) (o : Graph) (n : Nat) : Graph :=
  let curr := nmap.getD n (-1)
  if 0 ≤ curr then (removeBfs g il ol nmap curr.toNat (1 + (dstSet g).card) [n] {n} o).1
  else o

/-- The second loop of `gtn::remove`: the BFS run from every surviving
node. -/
def removeLoop (g : Graph) (il ol : Int) (nmap : List Int) (out : Graph) : Graph :=
  (List.range g.numNodes).foldl (removeLoopStep g il ol nmap) out

/-- `gtn::remove`: drop arcs matching the label pair while preserving
reachability across the removed arcs. -/
def remove (g : Graph) (il ol : Int) : Graph :=
  let st := removeInit g il ol
  removeLoop g il ol st.2 st.1

/-- One transparent step of `gtn::remove`'s BFS: some matching arc leaves
`m` and reaches `k`. -/
def matchStep (g : Graph) (il ol : Int) (m k : Nat) : Prop :=
  ∃ a ∈ g.out m, labelMatch g il ol a = true ∧ g.dstNode a = k

/-- Reachability in g along matching-label arcs only. -/
def ReachMatch (g : Graph) (il ol : Int) : Nat → Nat → Prop :=
  Relation.ReflTransGen (matchStep g il ol)

/-! ## Concrete graphs used by the witnesses -/

/-- A concrete two-node single-arc graph with weight 2, gradient tracking
requested. -/
def cg1 : Graph := ⟨[⟨true, false⟩, ⟨false, true⟩], [⟨0, 1, 0, 0, 2⟩], true, none, false, false⟩

/-- A concrete two-node single-arc graph with weight 3. -/
def cg2 : Graph := ⟨[⟨true, false⟩, ⟨false, true⟩], [⟨0, 1, 1, 1, 3⟩], true, none, false, false⟩

/-- A concrete single-arc graph whose gradient tracking was not requested. -/
def cgNoGrad : Graph :=
  ⟨[⟨true, false⟩, ⟨false, true⟩], [⟨0, 1, 0, 0, 5⟩], false, none, false, false⟩

/-- A concrete graph with an epsilon chain: start node 0, a middle node 1
reachable only through an epsilon arc, and an accept node 2. -/
def cgRem : Graph :=
  ⟨[⟨true, false⟩, ⟨false, false⟩, ⟨false, true⟩],
   [⟨0, 1, -1, -1, 1⟩, ⟨1, 2, 3, 3, 2⟩], true, none, false, false⟩

/-! ## Helper lemmas -/

theorem Graph.addGrad_not_requested (g : Graph) (l : List ℚ) (h : g.calcGrad = false) :
    g.addGrad l = g := by
  simp [Graph.addGrad, h]

theorem Graph.addGradG_not_requested (g : Graph) (d : Graph) (h : g.calcGrad = false) :
    g.addGradG d = g := by
  simp [Graph.addGradG, Graph.addGrad_not_requested, h]

theorem updateAt_pair_zero (a b : Graph) (f : Graph → Graph) :
    updateAt [a, b] 0 f = [f a, b] := by
  simp [updateAt]

theorem updateAt_pair_one (a b : Graph) (f : Graph → Graph) :
    updateAt [a, b] 1 f = [a, f b] := by
  simp [updateAt]

theorem negate_ok (g : Graph) (h : g.numArcs = 1) :
    negate g = .ok (scalarResult (-(g.item))) := by
  simp [negate, h, scalarResult, Graph.empty, Graph.addNode, Graph.addArc]

theorem add_ok (g1 g2 : Graph) (h1 : g1.numArcs = 1) (h2 : g2.numArcs = 1) :
    add g1 g2 = .ok (scalarResult (g1.item + g2.item)) := by
  simp [add, h1, h2, scalarResult, Graph.empty, Graph.addNode, Graph.addArc]

theorem subtract_ok (g1 g2 : Graph) (h1 : g1.numArcs = 1) (h2 : g2.numArcs = 1) :
    subtract g1 g2 = .ok (scalarResult (g1.item - g2.item)) := by
  simp [subtract, h1, h2, scalarResult, Graph.empty, Graph.addNode, Graph.addArc]

/-! ## Claim theorems for the scalar operations and matcher selection -/

/-- Claim C6: negate fails exactly when its input does not have exactly one
arc, and add/subtract fail exactly when either input does not have exactly
one arc; the check precedes all construction (modelled by `Except`: a
failing call returns only the error, no graph), and on success each returns
a two-node single-arc graph whose weight is respectively the negation, the
sum, and the difference of the input weights. -/
theorem scalar_precondition_c6 (g g1 g2 : Graph)
    (h : g.numArcs = 1) (h1 : g1.numArcs = 1) (h2 : g2.numArcs = 1) :
    (∀ gg : Graph, (∃ e, negate gg = .error e) ↔ gg.numArcs ≠ 1)
    ∧ (∀ ga gb : Graph, (∃ e, add ga gb = .error e) ↔ (ga.numArcs ≠ 1 ∨ gb.numArcs ≠ 1))
    ∧ (∀ ga gb : Graph, (∃ e, subtract ga gb = .error e) ↔ (ga.numArcs ≠ 1 ∨ gb.numArcs ≠ 1))
    ∧ (∃ r, negate g = .ok r ∧ r.nodes = [⟨true, false⟩, ⟨false, true⟩]
        ∧ r.arcs = [⟨0, 1, 0, 0, -(g.item)⟩])
    ∧ (∃ r, add g1 g2 = .ok r ∧ r.nodes = [⟨true, false⟩, ⟨false, true⟩]
        ∧ r.arcs = [⟨0, 1, 0, 0, g1.item + g2.item⟩])
    ∧ (∃ r, subtract g1 g2 = .ok r ∧ r.nodes = [⟨true, false⟩, ⟨false, true⟩]
        ∧ r.arcs = [⟨0, 1, 0, 0, g1.item - g2.item⟩]) := by
  refine ⟨fun gg => ?_, fun ga gb => ?_, fun ga gb => ?_, ?_, ?_, ?_⟩
  · by_cases hc : gg.numArcs = 1 <;> simp [negate, hc]
  · by_cases hc : ga.numArcs = 1 <;> by_cases hd : gb.numArcs = 1 <;>
      simp [add, hc, hd]
  · by_cases hc : ga.numArcs = 1 <;> by_cases hd : gb.numArcs = 1 <;>
      simp [subtract, hc, hd]
  · exact ⟨scalarResult (-(g.item)), negate_ok g h, rfl, rfl⟩
  · exact ⟨scalarResult (g1.item + g2.item), add_ok g1 g2 h1 h2, rfl, rfl⟩
  · exact ⟨scalarResult (g1.item - g2.item), subtract_ok g1 g2 h1 h2, rfl, rfl⟩

theorem scalar_precondition_c6_witness :
    cg1.numArcs = 1 ∧ cg2.numArcs = 1
    ∧ (∃ r, subtract cg1 cg2 = .ok r ∧ r.nodes = [⟨true, false⟩, ⟨false, true⟩]
        ∧ r.arcs = [⟨0, 1, 0, 0, cg1.item - cg2.item⟩]) :=
  ⟨by decide, by decide,
    (scalar_precondition_c6 cg1 cg1 cg2 (by decide) (by decide) (by decide)).2.2.2.2.2⟩

/-- Claim C9: for a graph with exactly one arc, negate(negate(g)) is defined
and its single arc's weight is exactly g's original scalar weight. -/
theorem double_negation_c9 (g : Graph) (h : g.numArcs = 1) :
    ∃ r1 r2, negate g = .ok r1 ∧ negate r1 = .ok r2 ∧ r2.numArcs = 1 ∧ r2.item = g.item := by
  have h1 : (scalarResult (-(g.item))).numArcs = 1 := rfl
  refine ⟨scalarResult (-(g.item)), scalarResult (-((scalarResult (-(g.item))).item)),
    negate_ok g h, negate_ok _ h1, rfl, ?_⟩
  simp [scalarResult, Graph.item, Graph.weight]

theorem double_negation_c9_witness :
    ∃ r1 r2, negate cg1 = .ok r1 ∧ negate r1 = .ok r2 ∧ r2.numArcs = 1 ∧ r2.item = cg1.item :=
  double_negation_c9 cg1 (by decide)

/-- Claim C7: the backward closure recorded on the result of remove always
fails explicitly, for every deltas argument, and never returns an updated
input list, so no gradient is ever accumulated through it. -/
theorem remove_grad_fails_c7 (inputs : List Graph) (deltas : Graph) :
    removeGradFunc inputs deltas
      = Except.error ("[gtn::remove] gradient compuation not implemented")
    ∧ ∀ updated, removeGradFunc inputs deltas ≠ Except.ok updated := by
  exact ⟨rfl, by simp [removeGradFunc]⟩

/-- Claim C8: compose picks its matcher once per call from the inputs'
static sortedness flags alone, preferring doubly-sorted (g1 olabel-sorted
and g2 ilabel-sorted), then singly-sorted (exactly one of the two flags),
then unsorted; intersect makes the analogous choice from each graph's
input-or-output-label sortedness. -/
theorem matcher_selection_c8 (g1 g2 : Graph) :
    (composeMatcher g1 g2 = .doublySorted
      ↔ (g1.olabelSorted = true ∧ g2.ilabelSorted = true))
    ∧ ((∃ b, composeMatcher g1 g2 = .singlySorted b) ↔ g1.olabelSorted ≠ g2.ilabelSorted)
    ∧ (composeMatcher g1 g2 = .unsorted
      ↔ (g1.olabelSorted = false ∧ g2.ilabelSorted = false))
    ∧ (intersectMatcher g1 g2 = .doublySorted
      ↔ ((g1.ilabelSorted || g1.olabelSorted) = true
          ∧ (g2.ilabelSorted || g2.olabelSorted) = true))
    ∧ ((∃ b, intersectMatcher g1 g2 = .singlySorted b)
      ↔ (g1.ilabelSorted || g1.olabelSorted) ≠ (g2.ilabelSorted || g2.olabelSorted))
    ∧ (intersectMatcher g1 g2 = .unsorted
      ↔ ((g1.ilabelSorted || g1.olabelSorted) = false
          ∧ (g2.ilabelSorted || g2.olabelSorted) = false)) := by
  cases hb1 : g1.olabelSorted <;> cases hb2 : g2.ilabelSorted <;>
    cases hc1 : g1.ilabelSorted <;> cases hc2 : g2.olabelSorted <;>
      simp [composeMatcher, intersectMatcher, hb1, hb2, hc1, hc2]

/-- Claim C3: the backward rules of add and subtract leave an input whose
gradient was not requested untouched (the accumulation is gated on
calcGrad), subtract skips computing the negation entirely when its second
input's gradient was not requested (so that branch succeeds for every
deltas), and an input whose gradient was requested receives its delta
contribution via addGrad. -/
theorem grad_calc_gate_c3 (i0 i1 deltas : Graph)
    (h0 : i0.calcGrad = false) (h1 : i1.calcGrad = false) :
    ((addGradFunc [i0, i1] deltas).getD 0 default = i0)
    ∧ ((addGradFunc [i0, i1] deltas).getD 1 default = i1)
    ∧ (subtractGradFunc [i0, i1] deltas = .ok [i0, i1])
    ∧ (∀ a b : Graph, b.calcGrad = false →
        subtractGradFunc [a, b] deltas = .ok [a.addGradG deltas, b])
    ∧ (∀ a b : Graph, a.calcGrad = false → ∀ r,
        subtractGradFunc [a, b] deltas = .ok r → r.getD 0 default = a)
    ∧ (∀ a b : Graph, a.calcGrad = true →
        (addGradFunc [a, b] deltas).getD 0 default = a.addGradG deltas) := by
  have hsub : ∀ a b : Graph, b.calcGrad = false →
      subtractGradFunc [a, b] deltas = .ok [a.addGradG deltas, b] := by
    intro a b hb
    simp [subtractGradFunc, updateAt_pair_zero, hb]
  refine ⟨?_, ?_, ?_, hsub, ?_, ?_⟩
  · simp [addGradFunc, updateAt_pair_zero, updateAt_pair_one,
      Graph.addGradG_not_requested _ _ h0]
  · simp [addGradFunc, updateAt_pair_zero, updateAt_pair_one,
      Graph.addGradG_not_requested _ _ h1]
  · rw [hsub i0 i1 h1, Graph.addGradG_not_requested _ _ h0]
  · intro a b ha r hr
    have hag : a.addGradG deltas = a := Graph.addGradG_not_requested _ _ ha
    by_cases hb : b.calcGrad = true
    · rcases hnd : negate deltas with e | nd
      · simp [subtractGradFunc, updateAt_pair_zero, hag, hb, hnd] at hr
      · simp [subtractGradFunc, updateAt_pair_zero, hag, hb, hnd] at hr
        simp [← hr, updateAt_pair_one]
    · have hb' : b.calcGrad = false := by simpa using hb
      rw [hsub a b hb'] at hr
      rw [hag] at hr
      simp at hr
      simp [← hr]
  · intro a b ha
    simp [addGradFunc, updateAt_pair_zero, updateAt_pair_one]

theorem grad_calc_gate_c3_witness :
    cgNoGrad.calcGrad = false
    ∧ subtractGradFunc [cgNoGrad, cgNoGrad] cg1 = .ok [cgNoGrad, cgNoGrad] :=
  ⟨by decide, (grad_calc_gate_c3 cgNoGrad cgNoGrad cg1 (by decide) (by decide)).2.2.1⟩

/-! ## Layout lemmas for concat and closure -/

theorem addNodesOf_eq (first isLast : Bool) (l : List Node) : ∀ out : Graph,
    addNodesOf out l first isLast
      = { out with nodes := out.nodes ++ l.map (fun nd => ⟨first && nd.start, isLast && nd.accept⟩) } := by
  induction l with
  | nil => intro out; simp [addNodesOf]
  | cons nd rest ih => intro out; simp [addNodesOf, Graph.addNode, ih]

theorem addArcsOf_eq (off : Nat) (l : List Arc) : ∀ out : Graph,
    addArcsOf out l off = { out with arcs := out.arcs ++ l.map (shiftArc off) } := by
  induction l with
  | nil => intro out; simp [addArcsOf]
  | cons ar rest ih => intro out; simp [addArcsOf, Graph.addArc, ih, shiftArc]

theorem addConnectInner_eq (a : Nat) (pOff off : Nat) (starts : List Nat) : ∀ out : Graph,
    addConnectInner out a starts pOff off
      = { out with arcs := out.arcs ++ starts.map (fun s => ⟨a + pOff, s + off, epsilon, epsilon, 0⟩) } := by
  induction starts with
  | nil => intro out; simp [addConnectInner]
  | cons s rest ih => intro out; simp [addConnectInner, Graph.addArc, ih]

theorem addConnectArcs_eq (starts : List Nat) (pOff off : Nat) (accepts : List Nat) : ∀ out : Graph,
    addConnectArcs out accepts starts pOff off
      = { out with arcs := out.arcs
            ++ (accepts.map (fun a => starts.map (fun s =>
                  (⟨a + pOff, s + off, epsilon, epsilon, 0⟩ : Arc)))).flatten } := by
  induction accepts with
  | nil => intro out; simp [addConnectArcs]
  | cons a rest ih => intro out; simp [addConnectArcs, addConnectInner_eq, ih]

theorem concatLoop_eq (gs : List Graph) :
    ∀ (out : Graph) (prev : Option Graph) (off : Nat) (first : Bool),
    concatLoop out prev off first gs
      = { out with nodes := out.nodes ++ concatNodesFrom first gs,
                   arcs := out.arcs ++ concatArcsFrom prev off gs } := by
  induction gs with
  | nil => intro out prev off first; simp [concatLoop, concatNodesFrom, concatArcsFrom]
  | cons g rest ih =>
      intro out prev off first
      cases prev with
      | none =>
          simp [concatLoop, ih, addNodesOf_eq, addArcsOf_eq, concatNodesFrom, concatArcsFrom]
      | some p =>
          simp [concatLoop, ih, addNodesOf_eq, addArcsOf_eq, addConnectArcs_eq,
            concatNodesFrom, concatArcsFrom, connArcs]

theorem concat_eq_of_ne_nil (gs : List Graph) (h : gs ≠ []) :
    concat gs
      = { Graph.empty with nodes := concatNodesFrom true gs, arcs := concatArcsFrom none 0 gs } := by
  cases gs with
  | nil => exact absurd rfl h
  | cons g rest => simp [concat, concatLoop_eq, Graph.empty]

theorem closureNodes_eq (l : List Node) : ∀ out : Graph,
    closureNodes out l = { out with nodes := out.nodes ++ l.map (fun _ => ⟨false, false⟩) } := by
  induction l with
  | nil => intro out; simp [closureNodes]
  | cons nd rest ih => intro out; simp [closureNodes, Graph.addNode, ih]

theorem closureArcs_eq (l : List Arc) : ∀ out : Graph,
    closureArcs out l
      = { out with arcs := out.arcs
            ++ l.map (fun ar => (⟨ar.src + 1, ar.dst + 1, ar.ilabel, ar.olabel, ar.weight⟩ : Arc)) } := by
  induction l with
  | nil => intro out; simp [closureArcs]
  | cons ar rest ih => intro out; simp [closureArcs, Graph.addArc, ih]

theorem closureStartArcs_eq (l : List Nat) : ∀ out : Graph,
    closureStartArcs out l
      = { out with arcs := out.arcs ++ l.map (fun s => (⟨0, s + 1, epsilon, epsilon, 0⟩ : Arc)) } := by
  induction l with
  | nil => intro out; simp [closureStartArcs]
  | cons s rest ih => intro out; simp [closureStartArcs, Graph.addArc, ih]

theorem closureAcceptArcs_eq (l : List Nat) : ∀ out : Graph,
    closureAcceptArcs out l
      = { out with arcs := out.arcs ++ l.map (fun a => (⟨a + 1, 0, epsilon, epsilon, 0⟩ : Arc)) } := by
  induction l with
  | nil => intro out; simp [closureAcceptArcs]
  | cons a rest ih => intro out; simp [closureAcceptArcs, Graph.addArc, ih]

/-- Claim C5: closure(g) has exactly one new node 0, both start and accept;
every original node n reappears as node n+1 (its flags dropped, per the
construction), every original arc is copied first and in original order
with both endpoints shifted by one and labels/weights unchanged; after
those come one epsilon arc from node 0 to s+1 per original start s, then
one epsilon arc from a+1 to node 0 per original accept a; the recorded
backward closure hands the first numArcs delta values unchanged to the
input. -/
theorem closure_shape_c5 (g : Graph) (gin : Graph) (rest : List Graph) (deltas : Graph) :
    (closure g).nodes = ⟨true, true⟩ :: g.nodes.map (fun _ => ⟨false, false⟩)
    ∧ (closure g).arcs
        = g.arcs.map (fun ar => (⟨ar.src + 1, ar.dst + 1, ar.ilabel, ar.olabel, ar.weight⟩ : Arc))
          ++ g.start.map (fun s => (⟨0, s + 1, epsilon, epsilon, 0⟩ : Arc))
          ++ g.accept.map (fun a => (⟨a + 1, 0, epsilon, epsilon, 0⟩ : Arc))
    ∧ closureGradFunc (gin :: rest) deltas
        = gin.addGrad (deltas.weights.take gin.numArcs) :: rest := by
  refine ⟨?_, ?_, ?_⟩
  · simp [closure, closureNodes_eq, closureArcs_eq, closureStartArcs_eq, closureAcceptArcs_eq,
      Graph.empty, Graph.addNode]
  · simp [closure, closureNodes_eq, closureArcs_eq, closureStartArcs_eq, closureAcceptArcs_eq,
      Graph.empty, Graph.addNode]
  · simp [closureGradFunc, updateAt]

/-- `getD` through a flag-rewriting node map, when the map fixes the default
node. -/
theorem getD_map_node (l : List Node) (f : Node → Node) (hf : f default = default) :
    ∀ n, (l.map f).getD n default = f (l.getD n default) := by
  induction l with
  | nil => intro n; simp [hf]
  | cons a l ih =>
      intro n
      cases n with
      | zero => rfl
      | succ n =>
          simp only [List.map_cons, List.getD_cons_succ]
          exact ih n

/-- Claim C1: concat of a non-empty list has exactly the inputs' nodes with
offset renumbering (start only for graph 1's starts, accept only for graph
n's accepts) and exactly the inputs' arcs with offset endpoints and
unchanged labels/weights, followed per adjacent pair by the full
accept-times-start cross product of epsilon connector arcs; concat of the
empty list is a single start-and-accept node with no arcs; concatenating
two graphs yields numNodes(g1)+numNodes(g2) nodes, keeps exactly g1's
starts and g2's accepts (shifted), and for single-accept/single-start
inputs produces exactly one epsilon connector arc. -/
theorem concat_shape_c1 (gs : List Graph) (g1 g2 : Graph)
    (hne : gs ≠ []) (ha : g1.numAccept = 1) (hs : g2.numStart = 1) :
    ((concat ([] : List Graph)).nodes = [⟨true, true⟩] ∧ (concat ([] : List Graph)).arcs = [])
    ∧ (concat gs).nodes = concatNodesFrom true gs
    ∧ (concat gs).arcs = concatArcsFrom none 0 gs
    ∧ (concat [g1, g2]).numNodes = g1.numNodes + g2.numNodes
    ∧ (∀ n, (concat [g1, g2]).isStart n = g1.isStart n)
    ∧ (∀ n, (concat [g1, g2]).isAccept (g1.numNodes + n) = g2.isAccept n)
    ∧ (∀ n, n < g1.numNodes → (concat [g1, g2]).isAccept n = false)
    ∧ (∃ a0 s0, g1.accept = [a0] ∧ g2.start = [s0] ∧
        (concat [g1, g2]).arcs
          = g1.arcs.map (shiftArc 0) ++ g2.arcs.map (shiftArc g1.numNodes)
            ++ [⟨a0, s0 + g1.numNodes, epsilon, epsilon, 0⟩]) := by
  have h2 : (concat [g1, g2])
      = { Graph.empty with nodes := concatNodesFrom true [g1, g2],
                           arcs := concatArcsFrom none 0 [g1, g2] } :=
    concat_eq_of_ne_nil _ (by simp)
  have hnodes2 : (concat [g1, g2]).nodes
      = g1.nodes.map (fun nd => ⟨nd.start, false⟩)
        ++ g2.nodes.map (fun nd => ⟨false, nd.accept⟩) := by
    rw [h2]
    simp [concatNodesFrom]
  obtain ⟨a0, ha0⟩ := List.length_eq_one.mp ha
  obtain ⟨s0, hs0⟩ := List.length_eq_one.mp hs
  refine ⟨⟨rfl, rfl⟩, ?_, ?_, ?_, ?_, ?_, ?_, ?_⟩
  · rw [concat_eq_of_ne_nil gs hne]
  · rw [concat_eq_of_ne_nil gs hne]
  · simp [Graph.numNodes, hnodes2]
  · intro n
    rcases Nat.lt_or_ge n g1.numNodes with hlt | hge
    · rw [Graph.isStart, hnodes2, List.getD_append _ _ _ _ (by simpa [Graph.numNodes] using hlt),
        getD_map_node _ _ rfl]
      rfl
    · have hge' : g1.nodes.length ≤ n := by simpa [Graph.numNodes] using hge
      rw [Graph.isStart, hnodes2, List.getD_append_right _ _ _ _ (by simpa using hge'),
        getD_map_node _ _ rfl, Graph.isStart, List.getD_eq_default g1.nodes default hge']
      rfl
  · intro n
    have hlen : (g1.nodes.map (fun nd => (⟨nd.start, false⟩ : Node))).length ≤ g1.numNodes + n := by
      simp [Graph.numNodes]
    rw [Graph.isAccept, hnodes2, List.getD_append_right _ _ _ _ hlen, getD_map_node _ _ rfl]
    simp [Graph.numNodes, Graph.isAccept]
  · intro n hlt
    rw [Graph.isAccept, hnodes2, List.getD_append _ _ _ _ (by simpa [Graph.numNodes] using hlt),
      getD_map_node _ _ rfl]
  · refine ⟨a0, s0, ha0, hs0, ?_⟩
    rw [h2]
    simp [concatArcsFrom, connArcs, ha0, hs0]

theorem concat_shape_c1_witness :
    ([cg1, cg2] : List Graph) ≠ [] ∧ cg1.numAccept = 1 ∧ cg2.numStart = 1
    ∧ (concat [cg1, cg2]).numNodes = cg1.numNodes + cg2.numNodes
    ∧ (∃ a0 s0, cg1.accept = [a0] ∧ cg2.start = [s0] ∧
        (concat [cg1, cg2]).arcs
          = cg1.arcs.map (shiftArc 0) ++ cg2.arcs.map (shiftArc cg1.numNodes)
            ++ [⟨a0, s0 + cg1.numNodes, epsilon, epsilon, 0⟩]) :=
  ⟨by decide, by decide, by decide,
    (concat_shape_c1 [cg1, cg2] cg1 cg2 (by decide) (by decide) (by decide)).2.2.2.1,
    (concat_shape_c1 [cg1, cg2] cg1 cg2 (by decide) (by decide) (by decide)).2.2.2.2.2.2.2⟩

/-! ## The positional correspondence between concat's forward arc layout and
its backward gradient slices -/

theorem withoutWeights_numArcs (g : Graph) : g.withoutWeights.numArcs = g.numArcs := by
  simp [Graph.withoutWeights, Graph.numArcs]

theorem withoutWeights_numStart (g : Graph) : g.withoutWeights.numStart = g.numStart := rfl

theorem withoutWeights_numAccept (g : Graph) : g.withoutWeights.numAccept = g.numAccept := rfl

theorem concatGradLoop_eq_zip (ws : List ℚ) (gs : List Graph) :
    ∀ (prev : Option Graph) (off : Nat),
    concatGradLoop ws prev off gs
      = List.zipWith
          (fun g o => if g.calcGrad then g.addGrad ((ws.drop o).take g.numArcs) else g)
          gs (concatGradOffsets prev off gs) := by
  induction gs with
  | nil => intro prev off; simp [concatGradLoop, concatGradOffsets]
  | cons g rest ih => intro prev off; simp [concatGradLoop, concatGradOffsets, ih]

theorem concatGradOffsets_length (gs : List Graph) : ∀ (prev : Option Graph) (off : Nat),
    (concatGradOffsets prev off gs).length = gs.length := by
  induction gs with
  | nil => intro prev off; simp [concatGradOffsets]
  | cons g rest ih => intro prev off; simp [concatGradOffsets, ih]

theorem concatGradOffsets_shift (gs : List Graph) : ∀ (prev : Option Graph) (off d : Nat),
    concatGradOffsets prev (off + d) gs = (concatGradOffsets prev off gs).map (fun x => x + d) := by
  induction gs with
  | nil => intro prev off d; simp [concatGradOffsets]
  | cons g rest ih =>
      intro prev off d
      simp only [concatGradOffsets, List.map_cons, List.cons.injEq, true_and]
      have harith : off + d + g.numArcs +
          (match prev with
           | none => 0
           | some p => p.numAccept * g.numStart)
          = off + g.numArcs +
            (match prev with
             | none => 0
             | some p => p.numAccept * g.numStart) + d := by
        omega
      rw [harith, ih]

theorem concatGradOffsets_withoutWeights (gs : List Graph) :
    ∀ (prev : Option Graph) (off : Nat),
    concatGradOffsets (prev.map Graph.withoutWeights) off (gs.map Graph.withoutWeights)
      = concatGradOffsets prev off gs := by
  induction gs with
  | nil => intro prev off; simp [concatGradOffsets]
  | cons g rest ih =>
      intro prev off
      cases prev with
      | none =>
          simp only [List.map_cons, Option.map_none', concatGradOffsets, List.cons.injEq,
            true_and]
          rw [withoutWeights_numArcs]
          simpa [Option.map_some'] using ih (some g) (off + g.numArcs + 0)
      | some p =>
          simp only [List.map_cons, Option.map_some', concatGradOffsets, List.cons.injEq,
            true_and]
          rw [withoutWeights_numArcs, withoutWeights_numAccept, withoutWeights_numStart]
          simpa [Option.map_some'] using
            ih (some g) (off + g.numArcs + p.numAccept * g.numStart)

theorem concatGradOffsets_withoutWeights_none (gs : List Graph) (off : Nat) :
    concatGradOffsets none off (gs.map Graph.withoutWeights) = concatGradOffsets none off gs :=
  concatGradOffsets_withoutWeights gs none off

theorem getD_map_add (l : List Nat) (d : Nat) : ∀ i, i < l.length →
    (l.map (fun x => x + d)).getD i 0 = l.getD i 0 + d := by
  induction l with
  | nil => intro i hi; simp at hi
  | cons a l ih =>
      intro i hi
      cases i with
      | zero => rfl
      | succ i =>
          simp only [List.map_cons, List.getD_cons_succ]
          exact ih i (by simpa using hi)

theorem drop_append_length {α : Type} (l₁ l₂ : List α) (k : Nat) :
    (l₁ ++ l₂).drop (l₁.length + k) = l₂.drop k := by
  induction l₁ with
  | nil => simp
  | cons a l ih =>
      have hx : (a :: l).length + k = (l.length + k) + 1 := by
        simp [List.length_cons]
        omega
      rw [hx, List.cons_append, List.drop_succ_cons, ih]

theorem length_flatten_map_const {α β : Type} (l : List α) (f : α → List β) (c : Nat)
    (hf : ∀ a, (f a).length = c) : ((l.map f).flatten).length = l.length * c := by
  induction l with
  | nil => simp
  | cons a rest ih =>
      simp only [List.map_cons, List.flatten_cons, List.length_append, hf, ih, List.length_cons]
      ring

theorem connArcs_length (p g : Graph) (pOff off : Nat) :
    (connArcs p g pOff off).length = p.numAccept * g.numStart := by
  rw [connArcs, Graph.numAccept, Graph.numStart]
  exact length_flatten_map_const _ _ _ (fun a => by simp)

theorem concatNodeOffset_cons_succ (g : Graph) (rest : List Graph) (i : Nat) :
    concatNodeOffset (g :: rest) (i + 1) = g.numNodes + concatNodeOffset rest i := by
  simp [concatNodeOffset]

/-- The forward arc layout of concat places input `i`'s arcs (shifted by its
node offset) exactly at the position read by the backward closure. -/
theorem concat_block_at_offset (gs : List Graph) :
    ∀ (prev : Option Graph) (noff i : Nat), i < gs.length →
    ((concatArcsFrom prev noff gs).drop ((concatGradOffsets prev 0 gs).getD i 0)).take
        ((gs.getD i default).numArcs)
      = (gs.getD i default).arcs.map (shiftArc (noff + concatNodeOffset gs i)) := by
  induction gs with
  | nil => intro prev noff i hi; simp at hi
  | cons g rest ih =>
      intro prev noff i hi
      cases i with
      | zero =>
          simp only [concatGradOffsets, concatArcsFrom, List.getD_cons_zero, List.drop_zero]
          rw [List.append_assoc, List.take_left' (by simp [Graph.numArcs])]
          simp [concatNodeOffset]
      | succ i =>
          have hi' : i < rest.length := by simpa using hi
          have hlenA : (g.arcs.map (shiftArc noff)).length = g.numArcs := by
            simp [Graph.numArcs]
          cases prev with
          | none =>
              simp only [concatGradOffsets, concatArcsFrom, List.getD_cons_succ,
                List.append_nil]
              rw [show (0 : Nat) + g.numArcs + 0 = 0 + g.numArcs from by omega,
                concatGradOffsets_shift,
                getD_map_add _ _ i (by rw [concatGradOffsets_length]; exact hi')]
              rw [show (concatGradOffsets (some g) 0 rest).getD i 0 + g.numArcs
                  = (g.arcs.map (shiftArc noff)).length
                    + (concatGradOffsets (some g) 0 rest).getD i 0 from by
                rw [hlenA]; omega]
              rw [drop_append_length, concatNodeOffset_cons_succ, ← Nat.add_assoc]
              exact ih (some g) (noff + g.numNodes) i hi'
          | some p =>
              simp only [concatGradOffsets, concatArcsFrom, List.getD_cons_succ]
              rw [show (0 : Nat) + g.numArcs + p.numAccept * g.numStart
                  = 0 + (g.numArcs + p.numAccept * g.numStart) from by omega,
                concatGradOffsets_shift,
                getD_map_add _ _ i (by rw [concatGradOffsets_length]; exact hi')]
              rw [show (concatGradOffsets (some g) 0 rest).getD i 0
                    + (g.numArcs + p.numAccept * g.numStart)
                  = (g.arcs.map (shiftArc noff)
                      ++ connArcs p g (noff - p.numNodes) noff).length
                    + (concatGradOffsets (some g) 0 rest).getD i 0 from by
                rw [List.length_append, hlenA, connArcs_length]; omega]
              rw [drop_append_length, concatNodeOffset_cons_succ, ← Nat.add_assoc]
              exact ih (some g) (noff + g.numNodes) i hi'

/-- Claim C2: concat's recorded backward closure slices the deltas' per-arc
gradient sequence positionally: input i (whose gradient is requested)
receives exactly the delta values at the positions where the forward
construction placed input i's arcs, in the same count and order; the spans
holding the synthetic epsilon connector arcs lie between those slices and
are skipped, so no gradient is accumulated for them. -/
theorem concat_grad_slices_c2 (gs : List Graph) (deltas : Graph) (i : Nat) (hi : i < gs.length) :
    concatGradFunc (gs.map Graph.withoutWeights) deltas
      = List.zipWith
          (fun g o => if g.calcGrad then g.addGrad ((deltas.weights.drop o).take g.numArcs) else g)
          (gs.map Graph.withoutWeights) (concatGradOffsets none 0 gs)
    ∧ ((concat gs).arcs.drop ((concatGradOffsets none 0 gs).getD i 0)).take
          ((gs.getD i default).numArcs)
        = (gs.getD i default).arcs.map (shiftArc (concatNodeOffset gs i)) := by
  constructor
  · rw [concatGradFunc, concatGradLoop_eq_zip, concatGradOffsets_withoutWeights_none]
  · have hne : gs ≠ [] := by
      intro hgs
      subst hgs
      simp at hi
    have harcs : (concat gs).arcs = concatArcsFrom none 0 gs := by
      rw [concat_eq_of_ne_nil gs hne]
    rw [harcs]
    simpa using concat_block_at_offset gs none 0 i hi

theorem concat_grad_slices_c2_witness :
    1 < ([cg1, cg2] : List Graph).length
    ∧ (((concat [cg1, cg2]).arcs.drop ((concatGradOffsets none 0 [cg1, cg2]).getD 1 0)).take
          (([cg1, cg2].getD 1 default).numArcs)
        = ([cg1, cg2].getD 1 default).arcs.map (shiftArc (concatNodeOffset [cg1, cg2] 1))) :=
  ⟨by decide, (concat_grad_slices_c2 [cg1, cg2] cg1 1 (by decide)).2⟩

/-! ## Invariants of the BFS of remove -/

theorem bfsStep_nodes (g : Graph) (il ol : Int) (nmap : List Int) (curr : Nat)
    (st : List Nat × Finset Nat × Graph) (a : Nat) :
    (bfsStep g il ol nmap curr st a).2.2.nodes = st.2.2.nodes := by
  rw [bfsStep]
  split
  · split <;> rfl
  · rfl

theorem foldl_bfsStep_nodes (g : Graph) (il ol : Int) (nmap : List Int) (curr : Nat)
    (l : List Nat) : ∀ st : List Nat × Finset Nat × Graph,
    (l.foldl (bfsStep g il ol nmap curr) st).2.2.nodes = st.2.2.nodes := by
  induction l with
  | nil => intro st; rfl
  | cons a rest ih =>
      intro st
      rw [List.foldl_cons, ih, bfsStep_nodes]

theorem bfsStep_reach_mono (g : Graph) (il ol : Int) (nmap : List Int) (curr : Nat)
    (st : List Nat × Finset Nat × Graph) (a : Nat) :
    st.2.1 ⊆ (bfsStep g il ol nmap curr st a).2.1 := by
  rw [bfsStep]
  split
  · split
    · exact fun x hx => hx
    · exact fun x hx => Finset.mem_insert_of_mem hx
  · exact fun x hx => hx

theorem foldl_bfsStep_reach_mono (g : Graph) (il ol : Int) (nmap : List Int) (curr : Nat)
    (l : List Nat) : ∀ st,
    st.2.1 ⊆ (l.foldl (bfsStep g il ol nmap curr) st).2.1 := by
  induction l with
  | nil => intro st; exact fun x hx => hx
  | cons a rest ih =>
      intro st
      rw [List.foldl_cons]
      exact fun x hx => ih _ (bfsStep_reach_mono g il ol nmap curr st a hx)

theorem foldl_bfsStep_match_mem (g : Graph) (il ol : Int) (nmap : List Int) (curr : Nat)
    (l : List Nat) : ∀ st, ∀ a ∈ l, labelMatch g il ol a = true →
    g.dstNode a ∈ (l.foldl (bfsStep g il ol nmap curr) st).2.1 := by
  induction l with
  | nil => intro st a ha; simp at ha
  | cons b rest ih =>
      intro st a ha hm
      rw [List.foldl_cons]
      rcases List.mem_cons.mp ha with rfl | ha'
      · have hstep : g.dstNode a ∈ (bfsStep g il ol nmap curr st a).2.1 := by
          rw [bfsStep]
          by_cases hd : g.dstNode a ∈ st.2.1
          · simp [hm, hd]
          · simp [hm, hd]
        exact foldl_bfsStep_reach_mono g il ol nmap curr rest _ hstep
      · exact ih _ a ha' hm

theorem foldl_bfsStep_spec (g : Graph) (il ol : Int) (nmap : List Int) (curr : Nat)
    (l : List Nat) : ∀ st : List Nat × Finset Nat × Graph,
    ∃ fresh : List Nat,
      (l.foldl (bfsStep g il ol nmap curr) st).1 = st.1 ++ fresh
      ∧ (l.foldl (bfsStep g il ol nmap curr) st).2.1 = st.2.1 ∪ fresh.toFinset
      ∧ fresh.Nodup
      ∧ (∀ x ∈ fresh, x ∉ st.2.1 ∧ ∃ a ∈ l, labelMatch g il ol a = true ∧ g.dstNode a = x) := by
  induction l with
  | nil =>
      intro st
      exact ⟨[], by simp, by simp, List.nodup_nil, by simp⟩
  | cons b rest ih =>
      intro st
      rw [List.foldl_cons]
      by_cases hm : labelMatch g il ol b = true
      · by_cases hd : g.dstNode b ∈ st.2.1
        · have hstep : bfsStep g il ol nmap curr st b = st := by
            rw [bfsStep]
            simp [hm, hd]
          obtain ⟨fresh, h1, h2, h3, h4⟩ := ih (bfsStep g il ol nmap curr st b)
          refine ⟨fresh, ?_, ?_, h3, ?_⟩
          · rw [h1, hstep]
          · rw [h2, hstep]
          · intro x hx
            obtain ⟨hx1, a, ha, hma, hda⟩ := h4 x hx
            rw [hstep] at hx1
            exact ⟨hx1, a, List.mem_cons_of_mem _ ha, hma, hda⟩
        · have hstep : bfsStep g il ol nmap curr st b
              = (st.1 ++ [g.dstNode b], insert (g.dstNode b) st.2.1, st.2.2) := by
            rw [bfsStep]
            simp [hm, hd]
          obtain ⟨fresh, h1, h2, h3, h4⟩ := ih (bfsStep g il ol nmap curr st b)
          refine ⟨g.dstNode b :: fresh, ?_, ?_, ?_, ?_⟩
          · rw [h1, hstep]
            simp
          · rw [h2, hstep]
            ext x
            simp [List.toFinset_cons]
          · rw [List.nodup_cons]
            refine ⟨fun hmem => ?_, h3⟩
            have hx1 := (h4 _ hmem).1
            rw [hstep] at hx1
            simp at hx1
          · intro x hx
            rcases List.mem_cons.mp hx with rfl | hx'
            · exact ⟨hd, b, List.mem_cons_self _ _, hm, rfl⟩
            · obtain ⟨hx1, a, ha, hma, hda⟩ := h4 x hx'
              rw [hstep] at hx1
              simp only [Finset.mem_insert, not_or] at hx1
              exact ⟨hx1.2, a, List.mem_cons_of_mem _ ha, hma, hda⟩
      · have hstep : (bfsStep g il ol nmap curr st b).1 = st.1
            ∧ (bfsStep g il ol nmap curr st b).2.1 = st.2.1 := by
          rw [bfsStep]
          simp [hm]
        obtain ⟨fresh, h1, h2, h3, h4⟩ := ih (bfsStep g il ol nmap curr st b)
        refine ⟨fresh, ?_, ?_, h3, ?_⟩
        · rw [h1, hstep.1]
        · rw [h2, hstep.2]
        · intro x hx
          obtain ⟨hx1, a, ha, hma, hda⟩ := h4 x hx
          rw [hstep.2] at hx1
          exact ⟨hx1, a, List.mem_cons_of_mem _ ha, hma, hda⟩

theorem bfsStep_arcs_prop (P : Arc → Prop) (g : Graph) (il ol : Int) (nmap : List Int)
    (curr : Nat) (st : List Nat × Finset Nat × Graph) (a : Nat)
    (hst : ∀ ar ∈ st.2.2.arcs, P ar)
    (hnew : labelMatch g il ol a = false →
      P ⟨curr, (nmap.getD (g.dstNode a) (-1)).toNat, g.ilabel a, g.olabel a, 0⟩) :
    ∀ ar ∈ (bfsStep g il ol nmap curr st a).2.2.arcs, P ar := by
  intro ar har
  by_cases hm : labelMatch g il ol a = true
  · rw [bfsStep] at har
    by_cases hd : g.dstNode a ∈ st.2.1
    · simp only [hm, hd, if_true] at har
      exact hst ar har
    · simp only [hm, hd, if_true, if_false] at har
      exact hst ar har
  · have hm' : labelMatch g il ol a = false := by simpa using hm
    rw [bfsStep] at har
    simp only [hm', Bool.false_eq_true, if_false, Graph.addArc] at har
    rcases List.mem_append.mp har with h | h
    · exact hst ar h
    · rw [List.mem_singleton] at h
      subst h
      exact hnew hm'

theorem foldl_bfsStep_arcs_prop (P : Arc → Prop) (g : Graph) (il ol : Int) (nmap : List Int)
    (curr : Nat)
    (hnew : ∀ a : Nat, labelMatch g il ol a = false →
      P ⟨curr, (nmap.getD (g.dstNode a) (-1)).toNat, g.ilabel a, g.olabel a, 0⟩)
    (l : List Nat) : ∀ st, (∀ ar ∈ st.2.2.arcs, P ar) →
    ∀ ar ∈ (l.foldl (bfsStep g il ol nmap curr) st).2.2.arcs, P ar := by
  induction l with
  | nil => intro st hst; exact hst
  | cons a rest ih =>
      intro st hst
      rw [List.foldl_cons]
      exact ih _ (bfsStep_arcs_prop P g il ol nmap curr st a hst (hnew a))

/-! ## Helper facts about list updates, makeAccept and the destination set -/

theorem getD_set_ne {α : Type} (l : List α) (i j : Nat) (v d : α) (h : i ≠ j) :
    (l.set i v).getD j d = l.getD j d := by
  induction l generalizing i j with
  | nil => simp
  | cons a t ih =>
      cases i with
      | zero =>
          cases j with
          | zero => exact absurd rfl h
          | succ j => simp
      | succ i =>
          cases j with
          | zero => simp
          | succ j => simpa using ih i j (by omega)

theorem getD_set_self {α : Type} (l : List α) (i : Nat) (v d : α) (h : i < l.length) :
    (l.set i v).getD i d = v := by
  induction l generalizing i with
  | nil => simp at h
  | cons a t ih =>
      cases i with
      | zero => simp
      | succ i => simpa using ih i (by simpa using h)

theorem makeAccept_nodes_length (g : Graph) (n : Nat) :
    (g.makeAccept n).nodes.length = g.nodes.length := by
  simp [Graph.makeAccept]

theorem makeAccept_getD_ne (g : Graph) (n j : Nat) (h : n ≠ j) :
    (g.makeAccept n).nodes.getD j default = g.nodes.getD j default := by
  simp only [Graph.makeAccept]
  exact getD_set_ne _ _ _ _ _ h

theorem makeAccept_isAccept_self (g : Graph) (n : Nat) (h : n < g.nodes.length) :
    (g.makeAccept n).isAccept n = true := by
  simp only [Graph.isAccept, Graph.makeAccept]
  rw [getD_set_self _ _ _ _ h]

theorem makeAccept_isAccept_mono (g : Graph) (n : Nat) (h : g.isAccept n = true) :
    (g.makeAccept n).isAccept n = true := by
  have hlt : n < g.nodes.length := by
    by_contra hge
    rw [Graph.isAccept, List.getD_eq_default _ _ (by omega)] at h
    exact absurd h (by decide)
  exact makeAccept_isAccept_self g n hlt

theorem isAccept_congr_nodes (a b : Graph) (h : a.nodes = b.nodes) (j : Nat) :
    a.isAccept j = b.isAccept j := by
  rw [Graph.isAccept, Graph.isAccept, h]

theorem mem_out_lt (g : Graph) (m a : Nat) (ha : a ∈ g.out m) : a < g.numArcs := by
  rw [Graph.out] at ha
  exact List.mem_range.mp (List.mem_filter.mp ha).1

theorem dstNode_mem_dstSet (g : Graph) (a : Nat) (ha : a < g.numArcs) :
    g.dstNode a ∈ dstSet g := by
  rw [dstSet, List.mem_toFinset, Graph.dstNode]
  refine List.mem_map.mpr ⟨g.arcs.getD a default, ?_, rfl⟩
  rw [List.getD_eq_getElem _ _ ha]
  exact List.getElem_mem _

/-! ## The BFS loop: unfolding, frame, soundness and completeness -/

theorem removeBfs_cons (g : Graph) (il ol : Int) (nmap : List Int) (curr fuel next : Nat)
    (rest : List Nat) (reach : Finset Nat) (out : Graph) :
    removeBfs g il ol nmap curr (fuel + 1) (next :: rest) reach out
      = removeBfs g il ol nmap curr fuel
          (processArcs g il ol nmap curr next (rest, reach,
            if g.isAccept next = true then out.makeAccept curr else out)).1
          (processArcs g il ol nmap curr next (rest, reach,
            if g.isAccept next = true then out.makeAccept curr else out)).2.1
          (processArcs g il ol nmap curr next (rest, reach,
            if g.isAccept next = true then out.makeAccept curr else out)).2.2 := rfl

theorem removeBfs_nodes_length (g : Graph) (il ol : Int) (nmap : List Int) (curr : Nat) :
    ∀ (fuel : Nat) (queue : List Nat) (reach : Finset Nat) (out : Graph),
    (removeBfs g il ol nmap curr fuel queue reach out).1.nodes.length = out.nodes.length := by
  intro fuel
  induction fuel with
  | zero =>
      intro queue reach out
      cases queue <;> rfl
  | succ fuel ih =>
      intro queue reach out
      cases queue with
      | nil => rfl
      | cons next rest =>
          rw [removeBfs_cons, ih, processArcs, foldl_bfsStep_nodes]
          by_cases hacc : g.isAccept next = true
          · simp [hacc, makeAccept_nodes_length]
          · simp [hacc]

theorem removeBfs_nodes_frame (g : Graph) (il ol : Int) (nmap : List Int) (curr : Nat) :
    ∀ (fuel : Nat) (queue : List Nat) (reach : Finset Nat) (out : Graph) (j : Nat), j ≠ curr →
    (removeBfs g il ol nmap curr fuel queue reach out).1.nodes.getD j default
      = out.nodes.getD j default := by
  intro fuel
  induction fuel with
  | zero =>
      intro queue reach out j hj
      cases queue <;> rfl
  | succ fuel ih =>
      intro queue reach out j hj
      cases queue with
      | nil => rfl
      | cons next rest =>
          rw [removeBfs_cons, ih _ _ _ j hj]
          have hn : (processArcs g il ol nmap curr next (rest, reach,
              if g.isAccept next = true then out.makeAccept curr else out)).2.2.nodes
              = (if g.isAccept next = true then out.makeAccept curr else out).nodes := by
            rw [processArcs, foldl_bfsStep_nodes]
          rw [hn]
          by_cases hacc : g.isAccept next = true
          · simp only [hacc, if_true]
            exact makeAccept_getD_ne out curr j (fun hh => hj hh.symm)
          · simp [hacc]

theorem removeBfs_accept_mono (g : Graph) (il ol : Int) (nmap : List Int) (curr : Nat) :
    ∀ (fuel : Nat) (queue : List Nat) (reach : Finset Nat) (out : Graph),
    out.isAccept curr = true →
    (removeBfs g il ol nmap curr fuel queue reach out).1.isAccept curr = true := by
  intro fuel
  induction fuel with
  | zero =>
      intro queue reach out h
      cases queue <;> exact h
  | succ fuel ih =>
      intro queue reach out h
      cases queue with
      | nil => exact h
      | cons next rest =>
          rw [removeBfs_cons]
          refine ih _ _ _ ?_
          have hn : (processArcs g il ol nmap curr next (rest, reach,
              if g.isAccept next = true then out.makeAccept curr else out)).2.2.nodes
              = (if g.isAccept next = true then out.makeAccept curr else out).nodes := by
            rw [processArcs, foldl_bfsStep_nodes]
          rw [isAccept_congr_nodes _ _ hn]
          by_cases hacc : g.isAccept next = true
          · simp only [hacc, if_true]
            exact makeAccept_isAccept_mono out curr h
          · simpa [hacc] using h

theorem removeBfs_accept_sound (g : Graph) (il ol : Int) (nmap : List Int) (curr n : Nat) :
    ∀ (fuel : Nat) (queue : List Nat) (reach : Finset Nat) (out : Graph),
    (∀ x ∈ reach, ReachMatch g il ol n x) → (∀ x ∈ queue, x ∈ reach) →
    (removeBfs g il ol nmap curr fuel queue reach out).1.isAccept curr = true →
    out.isAccept curr = true ∨ ∃ m, ReachMatch g il ol n m ∧ g.isAccept m = true := by
  intro fuel
  induction fuel with
  | zero =>
      intro queue reach out hr hq hfin
      cases queue with
      | nil => exact Or.inl hfin
      | cons next rest => exact Or.inl hfin
  | succ fuel ih =>
      intro queue reach out hr hq hfin
      cases queue with
      | nil => exact Or.inl hfin
      | cons next rest =>
          have hnext : next ∈ reach := hq next (List.mem_cons_self _ _)
          have hrnext : ReachMatch g il ol n next := hr next hnext
          rw [removeBfs_cons] at hfin
          obtain ⟨fresh, h1, h2, h3, h4⟩ :=
            foldl_bfsStep_spec g il ol nmap curr (g.out next) (rest, reach,
              if g.isAccept next = true then out.makeAccept curr else out)
          have hr' : ∀ x ∈ (processArcs g il ol nmap curr next (rest, reach,
              if g.isAccept next = true then out.makeAccept curr else out)).2.1,
              ReachMatch g il ol n x := by
            rw [processArcs, h2]
            intro x hx
            rcases Finset.mem_union.mp hx with hx | hx
            · exact hr x hx
            · obtain ⟨-, a, ha, hma, hda⟩ := h4 x (List.mem_toFinset.mp hx)
              exact Relation.ReflTransGen.tail hrnext ⟨a, ha, hma, hda⟩
          have hq' : ∀ x ∈ (processArcs g il ol nmap curr next (rest, reach,
              if g.isAccept next = true then out.makeAccept curr else out)).1,
              x ∈ (processArcs g il ol nmap curr next (rest, reach,
                if g.isAccept next = true then out.makeAccept curr else out)).2.1 := by
            rw [processArcs, h1, h2]
            intro x hx
            rcases List.mem_append.mp hx with hx | hx
            · exact Finset.mem_union_left _ (hq x (List.mem_cons_of_mem _ hx))
            · exact Finset.mem_union_right _ (List.mem_toFinset.mpr hx)
          rcases ih _ _ _ hr' hq' hfin with hout | hm
          · have hn : (processArcs g il ol nmap curr next (rest, reach,
                if g.isAccept next = true then out.makeAccept curr else out)).2.2.nodes
                = (if g.isAccept next = true then out.makeAccept curr else out).nodes := by
              rw [processArcs, foldl_bfsStep_nodes]
            rw [isAccept_congr_nodes _ _ hn] at hout
            by_cases hacc : g.isAccept next = true
            · exact Or.inr ⟨next, hrnext, hacc⟩
            · left
              simpa [hacc] using hout
          · exact Or.inr hm

theorem removeBfs_complete (g : Graph) (il ol : Int) (nmap : List Int) (curr : Nat) :
    ∀ (fuel : Nat) (queue : List Nat) (reach : Finset Nat) (out : Graph),
    queue.length + ((dstSet g) \ reach).card ≤ fuel →
    curr < out.nodes.length →
    (∀ x ∈ queue, x ∈ reach) →
    (∀ x ∈ reach, x ∉ queue → ∀ k, matchStep g il ol x k → k ∈ reach) →
    (∀ x ∈ reach, x ∉ queue → g.isAccept x = true → out.isAccept curr = true) →
    reach ⊆ (removeBfs g il ol nmap curr fuel queue reach out).2
    ∧ (∀ x ∈ (removeBfs g il ol nmap curr fuel queue reach out).2, ∀ k,
        matchStep g il ol x k → k ∈ (removeBfs g il ol nmap curr fuel queue reach out).2)
    ∧ (∀ x ∈ (removeBfs g il ol nmap curr fuel queue reach out).2, g.isAccept x = true →
        (removeBfs g il ol nmap curr fuel queue reach out).1.isAccept curr = true) := by
  intro fuel
  induction fuel with
  | zero =>
      intro queue reach out hfuel hcurr hq hclosed hacc
      have hqe : queue = [] := by
        cases queue with
        | nil => rfl
        | cons a t => simp at hfuel
      subst hqe
      exact ⟨fun x hx => hx,
        fun x hx k hk => hclosed x hx (by simp) k hk,
        fun x hx hax => hacc x hx (by simp) hax⟩
  | succ fuel ih =>
      intro queue reach out hfuel hcurr hq hclosed hacc
      cases queue with
      | nil =>
          exact ⟨fun x hx => hx,
            fun x hx k hk => hclosed x hx (by simp) k hk,
            fun x hx hax => hacc x hx (by simp) hax⟩
      | cons next rest =>
          have hnext : next ∈ reach := hq next (List.mem_cons_self _ _)
          rw [removeBfs_cons]
          obtain ⟨fresh, h1, h2, h3, h4⟩ :=
            foldl_bfsStep_spec g il ol nmap curr (g.out next) (rest, reach,
              if g.isAccept next = true then out.makeAccept curr else out)
          have h1' : (processArcs g il ol nmap curr next (rest, reach,
              if g.isAccept next = true then out.makeAccept curr else out)).1
              = rest ++ fresh := by
            rw [processArcs]
            simpa using h1
          have h2' : (processArcs g il ol nmap curr next (rest, reach,
              if g.isAccept next = true then out.makeAccept curr else out)).2.1
              = reach ∪ fresh.toFinset := by
            rw [processArcs]
            simpa using h2
          have h4' : ∀ x ∈ fresh, x ∉ reach
              ∧ ∃ a ∈ g.out next, labelMatch g il ol a = true ∧ g.dstNode a = x := by
            intro x hx
            have := h4 x hx
            simpa using this
          have hnodes : (processArcs g il ol nmap curr next (rest, reach,
              if g.isAccept next = true then out.makeAccept curr else out)).2.2.nodes
              = (if g.isAccept next = true then out.makeAccept curr else out).nodes := by
            rw [processArcs, foldl_bfsStep_nodes]
          have hout1len : (if g.isAccept next = true then out.makeAccept curr
              else out).nodes.length = out.nodes.length := by
            by_cases hacc1 : g.isAccept next = true
            · simp [hacc1, makeAccept_nodes_length]
            · simp [hacc1]
          have hout1mono : out.isAccept curr = true →
              (if g.isAccept next = true then out.makeAccept curr else out).isAccept curr
                = true := by
            intro h
            by_cases hacc1 : g.isAccept next = true
            · simp only [hacc1, if_true]
              exact makeAccept_isAccept_mono out curr h
            · simpa [hacc1] using h
          -- the fuel bound decreases
          have hsub : fresh.toFinset ⊆ dstSet g \ reach := by
            intro x hx
            rw [List.mem_toFinset] at hx
            obtain ⟨hx1, a, ha, hma, hda⟩ := h4' x hx
            exact Finset.mem_sdiff.mpr
              ⟨hda ▸ dstNode_mem_dstSet g a (mem_out_lt g next a ha), hx1⟩
          have hre : dstSet g \ (reach ∪ fresh.toFinset) = (dstSet g \ reach) \ fresh.toFinset := by
            ext x
            simp only [Finset.mem_sdiff, Finset.mem_union, not_or]
            tauto
          have hcard : ((dstSet g) \ (reach ∪ fresh.toFinset)).card
              = ((dstSet g) \ reach).card - fresh.toFinset.card := by
            rw [hre, Finset.card_sdiff hsub]
          have hlenf : fresh.toFinset.card = fresh.length := List.toFinset_card_of_nodup h3
          have hlef : fresh.toFinset.card ≤ ((dstSet g) \ reach).card := Finset.card_le_card hsub
          have hfuel' : (rest ++ fresh).length
              + ((dstSet g) \ (reach ∪ fresh.toFinset)).card ≤ fuel := by
            rw [List.length_append, hcard, hlenf] at *
            simp only [List.length_cons] at hfuel
            omega
          -- the remaining invariants
          have hq' : ∀ x ∈ rest ++ fresh, x ∈ reach ∪ fresh.toFinset := by
            intro x hx
            rcases List.mem_append.mp hx with hx | hx
            · exact Finset.mem_union_left _ (hq x (List.mem_cons_of_mem _ hx))
            · exact Finset.mem_union_right _ (List.mem_toFinset.mpr hx)
          have hclosed' : ∀ x ∈ reach ∪ fresh.toFinset, x ∉ rest ++ fresh →
              ∀ k, matchStep g il ol x k → k ∈ reach ∪ fresh.toFinset := by
            intro x hx hnx k hk
            by_cases hxn : x = next
            · subst hxn
              obtain ⟨a, ha, hma, hda⟩ := hk
              have := foldl_bfsStep_match_mem g il ol nmap curr (g.out x)
                (rest, reach, if g.isAccept x = true then out.makeAccept curr else out) a ha hma
              rw [← processArcs, h2'] at this
              rwa [hda] at this
            · rcases Finset.mem_union.mp hx with hx | hx
              · have hnq : x ∉ next :: rest := by
                  intro hmem
                  rcases List.mem_cons.mp hmem with hx2 | hx2
                  · exact hxn hx2
                  · exact hnx (List.mem_append_left _ hx2)
                exact Finset.mem_union_left _ (hclosed x hx hnq k hk)
              · exact absurd (List.mem_append_right _ (List.mem_toFinset.mp hx)) hnx
          have hacc' : ∀ x ∈ reach ∪ fresh.toFinset, x ∉ rest ++ fresh →
              g.isAccept x = true →
              (processArcs g il ol nmap curr next (rest, reach,
                if g.isAccept next = true then out.makeAccept curr else out)).2.2.isAccept curr
                = true := by
            intro x hx hnx hax
            rw [isAccept_congr_nodes _ _ hnodes]
            by_cases hxn : x = next
            · subst hxn
              simp only [hax, if_true]
              exact makeAccept_isAccept_self out curr hcurr
            · rcases Finset.mem_union.mp hx with hx | hx
              · have hnq : x ∉ next :: rest := by
                  intro hmem
                  rcases List.mem_cons.mp hmem with hx2 | hx2
                  · exact hxn hx2
                  · exact hnx (List.mem_append_left _ hx2)
                exact hout1mono (hacc x hx hnq hax)
              · exact absurd (List.mem_append_right _ (List.mem_toFinset.mp hx)) hnx
          have hcurr' : curr < (processArcs g il ol nmap curr next (rest, reach,
              if g.isAccept next = true then out.makeAccept curr else out)).2.2.nodes.length := by
            rw [hnodes, hout1len]
            exact hcurr
          rw [h1', h2']
          obtain ⟨hi1, hi2, hi3⟩ := ih (rest ++ fresh) (reach ∪ fresh.toFinset) _
            hfuel' hcurr' hq' hclosed' hacc'
          exact ⟨fun x hx => hi1 (Finset.mem_union_left _ hx), hi2, hi3⟩

/-- The BFS run from a single seed marks the seed's image accept exactly
when some node reachable from the seed along matching arcs (the seed itself
included) is an accept node of g. -/
theorem removeBfs_seed_iff (g : Graph) (il ol : Int) (nmap : List Int) (curr n : Nat)
    (out : Graph) (hcurr : curr < out.nodes.length) (hinit : out.isAccept curr = false) :
    ((removeBfs g il ol nmap curr (1 + (dstSet g).card) [n] {n} out).1.isAccept curr = true
      ↔ ∃ m, ReachMatch g il ol n m ∧ g.isAccept m = true) := by
  constructor
  · intro h
    rcases removeBfs_accept_sound g il ol nmap curr n (1 + (dstSet g).card) [n] {n} out
        (fun x hx => by
          rw [Finset.mem_singleton] at hx
          rw [hx]
          exact Relation.ReflTransGen.refl)
        (fun x hx => by
          rw [List.mem_singleton] at hx
          rw [hx]
          exact Finset.mem_singleton_self n) h with h' | h'
    · rw [hinit] at h'
      exact absurd h' (by simp)
    · exact h'
  · rintro ⟨m, hrm, hm⟩
    obtain ⟨hi1, hi2, hi3⟩ := removeBfs_complete g il ol nmap curr (1 + (dstSet g).card)
      [n] {n} out
      (by
        simp only [List.length_singleton]
        have := Finset.card_le_card (Finset.sdiff_subset (s := dstSet g) (t := {n}))
        omega)
      hcurr
      (fun x hx => by
        rw [List.mem_singleton] at hx
        rw [hx]
        exact Finset.mem_singleton_self n)
      (fun x hx hnx k hk => absurd (by
        rw [Finset.mem_singleton] at hx
        rw [hx]
        exact List.mem_singleton_self n) hnx)
      (fun x hx hnx hax => absurd (by
        rw [Finset.mem_singleton] at hx
        rw [hx]
        exact List.mem_singleton_self n) hnx)
    have hnmem : n ∈ (removeBfs g il ol nmap curr (1 + (dstSet g).card) [n] {n} out).2 :=
      hi1 (Finset.mem_singleton_self n)
    have hreach : ∀ y, ReachMatch g il ol n y →
        y ∈ (removeBfs g il ol nmap curr (1 + (dstSet g).card) [n] {n} out).2 := by
      intro y hy
      induction hy with
      | refl => exact hnmem
      | tail hab hbc ihm => exact hi2 _ ihm _ hbc
    exact hi3 m (hreach m hrm) hm

/-! ## The first loop of remove: node creation and the node map -/

theorem getD_replicate {α : Type} (N n : Nat) (c : α) : (List.replicate N c).getD n c = c := by
  induction N generalizing n with
  | zero => rfl
  | succ N ih =>
      cases n with
      | zero => rfl
      | succ n =>
          rw [List.replicate_succ, List.getD_cons_succ]
          exact ih n

theorem removeInitAux_spec (g : Graph) (il ol : Int) :
    ∀ k : Nat, k ≤ g.numNodes →
    (removeInitAux g il ol k).1.nodes
        = ((List.range k).filter (removeKeep g il ol)).map (fun n => ⟨g.isStart n, false⟩)
    ∧ (removeInitAux g il ol k).1.arcs = []
    ∧ (removeInitAux g il ol k).2.length = g.numNodes
    ∧ (∀ n, n < k → (removeInitAux g il ol k).2.getD n (-1)
        = (if removeKeep g il ol n
           then Int.ofNat (((List.range n).filter (removeKeep g il ol)).length)
           else -1))
    ∧ (∀ n, k ≤ n → (removeInitAux g il ol k).2.getD n (-1) = -1) := by
  intro k
  induction k with
  | zero =>
      intro hk
      refine ⟨rfl, rfl, by simp [removeInitAux], fun n hn => absurd hn (by omega), ?_⟩
      intro n hn
      rw [removeInitAux]
      simp only [List.range_zero, List.foldl_nil]
      exact getD_replicate _ _ _
  | succ k ih =>
      intro hk
      obtain ⟨ih1, ih2, ih3, ih4, ih5⟩ := ih (by omega)
      have hstep : removeInitAux g il ol (k + 1)
          = removeInitStep g il ol (removeInitAux g il ol k) k := by
        rw [removeInitAux, removeInitAux, List.range_succ, List.foldl_append, List.foldl_cons,
          List.foldl_nil]
      by_cases hkeep : removeKeep g il ol k = true
      · have hnodes1 : (removeInitStep g il ol (removeInitAux g il ol k) k).1.nodes
            = (removeInitAux g il ol k).1.nodes ++ [⟨g.isStart k, false⟩] := by
          rw [removeInitStep]
          simp [hkeep, Graph.addNode]
        have harcs1 : (removeInitStep g il ol (removeInitAux g il ol k) k).1.arcs
            = (removeInitAux g il ol k).1.arcs := by
          rw [removeInitStep]
          simp [hkeep, Graph.addNode]
        have hmap1 : (removeInitStep g il ol (removeInitAux g il ol k) k).2
            = (removeInitAux g il ol k).2.set k
                (Int.ofNat (removeInitAux g il ol k).1.nodes.length) := by
          rw [removeInitStep]
          simp [hkeep, Graph.addNode]
        refine ⟨?_, ?_, ?_, ?_, ?_⟩
        · rw [hstep, hnodes1, ih1, List.range_succ, List.filter_append, List.map_append]
          simp [hkeep]
        · rw [hstep, harcs1]
          exact ih2
        · rw [hstep, hmap1, List.length_set]
          exact ih3
        · intro n hn
          rw [hstep, hmap1]
          rcases Nat.lt_or_ge n k with hnk | hnk
          · rw [getD_set_ne _ _ _ _ _ (by omega)]
            exact ih4 n hnk
          · have hnk' : n = k := by omega
            subst hnk'
            rw [getD_set_self _ _ _ _ (by rw [ih3]; omega), ih1]
            simp [hkeep]
        · intro n hn
          rw [hstep, hmap1, getD_set_ne _ _ _ _ _ (by omega)]
          exact ih5 n (by omega)
      · have hid : removeInitStep g il ol (removeInitAux g il ol k) k
            = removeInitAux g il ol k := by
          rw [removeInitStep]
          simp [hkeep]
        refine ⟨?_, ?_, ?_, ?_, ?_⟩
        · rw [hstep, hid, ih1, List.range_succ, List.filter_append]
          simp [hkeep]
        · rw [hstep, hid]
          exact ih2
        · rw [hstep, hid]
          exact ih3
        · intro n hn
          rw [hstep, hid]
          rcases Nat.lt_or_ge n k with hnk | hnk
          · exact ih4 n hnk
          · have hnk' : n = k := by omega
            subst hnk'
            rw [ih5 n (by omega)]
            simp [hkeep]
        · intro n hn
          rw [hstep, hid]
          exact ih5 n (by omega)

theorem removeNodeMap_spec (g : Graph) (il ol : Int) (n : Nat) (hn : n < g.numNodes) :
    (removeNodeMap g il ol).getD n (-1)
      = (if removeKeep g il ol n
         then Int.ofNat (((List.range n).filter (removeKeep g il ol)).length)
         else -1) := by
  rw [removeNodeMap, removeInit]
  exact (removeInitAux_spec g il ol g.numNodes (le_refl _)).2.2.2.1 n hn

theorem removeInit_nodes (g : Graph) (il ol : Int) :
    (removeInit g il ol).1.nodes
      = ((List.range g.numNodes).filter (removeKeep g il ol)).map
          (fun n => ⟨g.isStart n, false⟩) := by
  rw [removeInit]
  exact (removeInitAux_spec g il ol g.numNodes (le_refl _)).1

theorem removeInit_arcs (g : Graph) (il ol : Int) : (removeInit g il ol).1.arcs = [] := by
  rw [removeInit]
  exact (removeInitAux_spec g il ol g.numNodes (le_refl _)).2.1

theorem filter_range_length_lt (p : Nat → Bool) (n n2 : Nat) (hlt : n < n2) (hp : p n = true) :
    ((List.range n).filter p).length < ((List.range n2).filter p).length := by
  have h1 : n2 = (n + 1) + (n2 - (n + 1)) := by omega
  rw [h1, List.range_add, List.filter_append, List.length_append, List.range_succ,
    List.filter_append, List.length_append]
  simp [hp]
  omega

/-! ## The second loop of remove -/

theorem isAccept_congr_getD (a b : Graph) (j : Nat)
    (h : a.nodes.getD j default = b.nodes.getD j default) : a.isAccept j = b.isAccept j := by
  rw [Graph.isAccept, Graph.isAccept, h]

theorem foldl_removeLoopStep_length (g : Graph) (il ol : Int) (nmap : List Int) :
    ∀ (L : List Nat) (out : Graph),
    (L.foldl (removeLoopStep g il ol nmap) out).nodes.length = out.nodes.length := by
  intro L
  induction L with
  | nil => intro out; rfl
  | cons n L ihl =>
      intro out
      rw [List.foldl_cons, ihl]
      simp only [removeLoopStep]
      by_cases hc : 0 ≤ nmap.getD n (-1)
      · simp only [hc, if_true]
        exact removeBfs_nodes_length g il ol nmap _ _ _ _ _
      · rw [if_neg hc]

theorem foldl_removeLoopStep_frame (g : Graph) (il ol : Int) (nmap : List Int) :
    ∀ (L : List Nat) (out : Graph) (j : Nat),
    (∀ n ∈ L, 0 ≤ nmap.getD n (-1) → (nmap.getD n (-1)).toNat ≠ j) →
    (L.foldl (removeLoopStep g il ol nmap) out).nodes.getD j default
      = out.nodes.getD j default := by
  intro L
  induction L with
  | nil => intro out j h; rfl
  | cons n L ihl =>
      intro out j h
      rw [List.foldl_cons, ihl _ j (fun m hm => h m (List.mem_cons_of_mem _ hm))]
      simp only [removeLoopStep]
      by_cases hc : 0 ≤ nmap.getD n (-1)
      · simp only [hc, if_true]
        exact removeBfs_nodes_frame g il ol nmap _ _ _ _ _ j
          (Ne.symm (h n (List.mem_cons_self _ _) hc))
      · rw [if_neg hc]

theorem removeBfs_arcs_prop (P : Arc → Prop) (g : Graph) (il ol : Int) (nmap : List Int)
    (curr : Nat)
    (hnew : ∀ a : Nat, labelMatch g il ol a = false →
      P ⟨curr, (nmap.getD (g.dstNode a) (-1)).toNat, g.ilabel a, g.olabel a, 0⟩) :
    ∀ (fuel : Nat) (queue : List Nat) (reach : Finset Nat) (out : Graph),
    (∀ ar ∈ out.arcs, P ar) →
    ∀ ar ∈ (removeBfs g il ol nmap curr fuel queue reach out).1.arcs, P ar := by
  intro fuel
  induction fuel with
  | zero =>
      intro queue reach out hout
      cases queue with
      | nil => exact hout
      | cons a t => exact hout
  | succ fuel ih =>
      intro queue reach out hout
      cases queue with
      | nil => exact hout
      | cons next rest =>
          rw [removeBfs_cons]
          refine ih _ _ _ ?_
          have hout1 : ∀ ar ∈ (if g.isAccept next = true then out.makeAccept curr
              else out).arcs, P ar := by
            by_cases hacc : g.isAccept next = true
            · simpa [hacc, Graph.makeAccept] using hout
            · simpa [hacc] using hout
          rw [processArcs]
          exact foldl_bfsStep_arcs_prop P g il ol nmap curr hnew (g.out next) _
            (by simpa using hout1)

theorem foldl_removeLoopStep_arcs_prop (P : Arc → Prop) (g : Graph) (il ol : Int)
    (nmap : List Int)
    (hnew : ∀ (curr a : Nat), labelMatch g il ol a = false →
      P ⟨curr, (nmap.getD (g.dstNode a) (-1)).toNat, g.ilabel a, g.olabel a, 0⟩) :
    ∀ (L : List Nat) (out : Graph), (∀ ar ∈ out.arcs, P ar) →
    ∀ ar ∈ (L.foldl (removeLoopStep g il ol nmap) out).arcs, P ar := by
  intro L
  induction L with
  | nil => intro out h; exact h
  | cons n L ihl =>
      intro out h
      rw [List.foldl_cons]
      refine ihl _ ?_
      simp only [removeLoopStep]
      by_cases hc : 0 ≤ nmap.getD n (-1)
      · simp only [hc, if_true]
        exact removeBfs_arcs_prop P g il ol nmap _ (hnew _) _ _ _ _ h
      · rw [if_neg hc]
        exact h

/-- Every arc of remove's output was added by the BFS: weight is the C++
default 0 and its label pair is not the removed one. -/
theorem remove_arcs_prop (g : Graph) (il ol : Int) :
    ∀ ar ∈ (remove g il ol).arcs, ar.weight = 0 ∧ ¬(ar.ilabel = il ∧ ar.olabel = ol) := by
  have hrm : remove g il ol
      = (List.range g.numNodes).foldl
          (removeLoopStep g il ol (removeNodeMap g il ol)) (removeInit g il ol).1 := rfl
  rw [hrm]
  refine foldl_removeLoopStep_arcs_prop _ g il ol _ ?_ _ _ ?_
  · intro curr a hm
    refine ⟨rfl, ?_⟩
    rintro ⟨h1, h2⟩
    rw [labelMatch] at hm
    simp only at h1 h2
    rw [h1, h2] at hm
    simp at hm
  · intro ar har
    rw [removeInit_arcs] at har
    simp at har

theorem removeKeep_iff (g : Graph) (il ol : Int) (k : Nat) :
    removeKeep g il ol k = true
      ↔ (g.isStart k = true ∨ ∃ a ∈ g.inArcs k, labelMatch g il ol a = false) := by
  rw [removeKeep]
  simp only [Bool.or_eq_true, Bool.not_eq_true']
  constructor
  · rintro (h | h)
    · exact Or.inl h
    · refine Or.inr ?_
      by_contra hno
      push_neg at hno
      have : (g.inArcs k).all (labelMatch g il ol) = true := by
        rw [List.all_eq_true]
        intro a ha
        rcases hb : labelMatch g il ol a with hb | hb
        · exact absurd hb (by simpa using hno a ha)
        · rfl
      rw [this] at h
      exact absurd h (by simp)
  · rintro (h | ⟨a, ha, hfa⟩)
    · exact Or.inl h
    · refine Or.inr ?_
      by_contra hall
      have : labelMatch g il ol a = true := by
        have := List.all_eq_true.mp (by simpa using hall) a ha
        simpa using this
      rw [this] at hfa
      exact absurd hfa (by simp)

theorem getD_map_start_false {α : Type} (l : List α) (f : α → Bool) (j : Nat) :
    ((l.map (fun x => (⟨f x, false⟩ : Node))).getD j default).accept = false := by
  induction l generalizing j with
  | nil => rfl
  | cons a t ih =>
      cases j with
      | zero => rfl
      | succ j =>
          rw [List.map_cons, List.getD_cons_succ]
          exact ih j

theorem foldl_removeLoopStep_accept_iff (g : Graph) (il ol : Int) (nmap : List Int) :
    ∀ (L : List Nat) (out : Graph) (n j : Nat),
    L.Nodup → n ∈ L →
    nmap.getD n (-1) = Int.ofNat j →
    (∀ n2 ∈ L, n2 ≠ n → 0 ≤ nmap.getD n2 (-1) → (nmap.getD n2 (-1)).toNat ≠ j) →
    j < out.nodes.length →
    out.isAccept j = false →
    ((L.foldl (removeLoopStep g il ol nmap) out).isAccept j = true
      ↔ ∃ m, ReachMatch g il ol n m ∧ g.isAccept m = true) := by
  intro L
  induction L with
  | nil =>
      intro out n j hnd hn
      simp at hn
  | cons n0 L ihl =>
      intro out n j hnd hn hmap hinj hlt hfalse
      rw [List.foldl_cons]
      by_cases heq : n0 = n
      · subst heq
        have hnL : n0 ∉ L := (List.nodup_cons.mp hnd).1
        have hstep : removeLoopStep g il ol nmap out n0
            = (removeBfs g il ol nmap j (1 + (dstSet g).card) [n0] {n0} out).1 := by
          simp only [removeLoopStep, hmap]
          simp [Int.toNat_ofNat]
        rw [hstep]
        have hframe : (L.foldl (removeLoopStep g il ol nmap)
            (removeBfs g il ol nmap j (1 + (dstSet g).card) [n0] {n0} out).1).nodes.getD j
              default
            = (removeBfs g il ol nmap j (1 + (dstSet g).card)
                [n0] {n0} out).1.nodes.getD j default :=
          foldl_removeLoopStep_frame g il ol nmap L _ j
            (fun m hm => hinj m (List.mem_cons_of_mem _ hm) (fun hmn => hnL (hmn ▸ hm)))
        rw [isAccept_congr_getD _ _ j hframe]
        exact removeBfs_seed_iff g il ol nmap j n0 out hlt hfalse
      · have hn' : n ∈ L := by
          rcases List.mem_cons.mp hn with h | h
          · exact absurd h.symm heq
          · exact h
        have hlen : (removeLoopStep g il ol nmap out n0).nodes.length = out.nodes.length := by
          simp only [removeLoopStep]
          by_cases hc : 0 ≤ nmap.getD n0 (-1)
          · simp only [hc, if_true]
            exact removeBfs_nodes_length g il ol nmap _ _ _ _ _
          · rw [if_neg hc]
        have hgd : (removeLoopStep g il ol nmap out n0).nodes.getD j default
            = out.nodes.getD j default := by
          simp only [removeLoopStep]
          by_cases hc : 0 ≤ nmap.getD n0 (-1)
          · simp only [hc, if_true]
            exact removeBfs_nodes_frame g il ol nmap _ _ _ _ _ j
              (Ne.symm (hinj n0 (List.mem_cons_self _ _) heq hc))
          · rw [if_neg hc]
        exact ihl (removeLoopStep g il ol nmap out n0) n j (List.nodup_cons.mp hnd).2 hn' hmap
          (fun n2 h2 => hinj n2 (List.mem_cons_of_mem _ h2)) (by rw [hlen]; exact hlt)
          (by rw [isAccept_congr_getD _ out j hgd]; exact hfalse)

/-- Claim C4: remove(g, ilabel, olabel) creates a node for an original node
n iff n is a start node or has an incoming arc whose labels do not both
match; the output contains no arc labeled with the removed pair; and a
surviving node's image is marked accept iff some node reachable from it in
g along matching-label arcs (the node itself included) is an accept node of
g.  The output's node count is exactly the number of surviving nodes. -/
theorem remove_shape_c4 (g : Graph) (il ol : Int) (n j : Nat) (hn : n < g.numNodes)
    (hj : (removeNodeMap g il ol).getD n (-1) = Int.ofNat j) :
    (∀ k, k < g.numNodes →
      (0 ≤ (removeNodeMap g il ol).getD k (-1)
        ↔ (g.isStart k = true ∨ ∃ a ∈ g.inArcs k, labelMatch g il ol a = false)))
    ∧ (∀ ar ∈ (remove g il ol).arcs, ¬(ar.ilabel = il ∧ ar.olabel = ol))
    ∧ ((remove g il ol).isAccept j = true
        ↔ ∃ m, ReachMatch g il ol n m ∧ g.isAccept m = true)
    ∧ (remove g il ol).numNodes
        = ((List.range g.numNodes).filter (removeKeep g il ol)).length := by
  have hrm : remove g il ol
      = (List.range g.numNodes).foldl
          (removeLoopStep g il ol (removeNodeMap g il ol)) (removeInit g il ol).1 := rfl
  have hspecn := removeNodeMap_spec g il ol n hn
  have hkeepn : removeKeep g il ol n = true := by
    by_contra hk
    have hj2 := hj
    rw [hspecn, if_neg hk] at hj2
    simp only [Int.ofNat_eq_natCast] at hj2
    omega
  have hjval : j = ((List.range n).filter (removeKeep g il ol)).length := by
    have hj2 := hj
    rw [hspecn, if_pos hkeepn] at hj2
    simp only [Int.ofNat_eq_natCast] at hj2
    omega
  refine ⟨?_, fun ar har => (remove_arcs_prop g il ol ar har).2, ?_, ?_⟩
  · intro k hk
    have hspeck := removeNodeMap_spec g il ol k hk
    by_cases hkk : removeKeep g il ol k = true
    · rw [hspeck, if_pos hkk]
      exact iff_of_true (by simp only [Int.ofNat_eq_natCast]; omega)
        ((removeKeep_iff g il ol k).mp hkk)
    · rw [hspeck, if_neg hkk]
      exact iff_of_false (by omega) (fun hr => hkk ((removeKeep_iff g il ol k).mpr hr))
  · rw [hrm]
    refine foldl_removeLoopStep_accept_iff g il ol (removeNodeMap g il ol)
      (List.range g.numNodes) (removeInit g il ol).1 n j (List.nodup_range _)
      (List.mem_range.mpr hn) hj ?_ ?_ ?_
    · intro n2 h2 hne hpos
      have hn2 : n2 < g.numNodes := List.mem_range.mp h2
      have hspec2 := removeNodeMap_spec g il ol n2 hn2
      by_cases hk2 : removeKeep g il ol n2 = true
      · rw [hspec2, if_pos hk2]
        simp only [Int.ofNat_eq_natCast, Int.toNat_natCast]
        rcases Nat.lt_or_ge n2 n with hlt | hge
        · have := filter_range_length_lt (removeKeep g il ol) n2 n hlt hk2
          omega
        · have hgt : n < n2 := by omega
          have := filter_range_length_lt (removeKeep g il ol) n n2 hgt hkeepn
          omega
      · rw [hspec2, if_neg hk2] at hpos
        exact absurd hpos (by decide)
    · rw [removeInit_nodes, List.length_map, hjval]
      exact filter_range_length_lt (removeKeep g il ol) n g.numNodes hn hkeepn
    · rw [Graph.isAccept, removeInit_nodes]
      exact getD_map_start_false _ _ j
  · rw [hrm, Graph.numNodes, foldl_removeLoopStep_length, removeInit_nodes, List.length_map]

theorem remove_shape_c4_witness :
    (0 : Nat) < cgRem.numNodes
    ∧ (removeNodeMap cgRem (-1) (-1)).getD 0 (-1) = Int.ofNat 0
    ∧ (remove cgRem (-1) (-1)).numNodes
        = ((List.range cgRem.numNodes).filter (removeKeep cgRem (-1) (-1))).length :=
  ⟨by decide, by decide,
    (remove_shape_c4 cgRem (-1) (-1) 0 0 (by decide) (by decide)).2.2.2⟩

/-- Claim C10: every arc of the graph returned by remove has weight 0 — the
construction drops the weights of all arcs it copies, the non-matching ones
taken directly from g included (the C++ addArc call uses the default
weight). -/
theorem remove_zero_weights_c10 (g : Graph) (il ol : Int) (ar : Arc)
    (h : ar ∈ (remove g il ol).arcs) : ar.weight = 0 :=
  (remove_arcs_prop g il ol ar h).1

theorem remove_zero_weights_c10_witness :
    (⟨0, 1, 3, 3, 0⟩ : Arc) ∈ (remove cgRem (-1) (-1)).arcs
    ∧ (⟨0, 1, 3, 3, 0⟩ : Arc).weight = 0 :=
  ⟨by decide, remove_zero_weights_c10 cgRem (-1) (-1) ⟨0, 1, 3, 3, 0⟩ (by decide)⟩

end Gtn
